import Mathlib

/-!
Verification of the core components of the `ladaemon` identity broker.

The Rust sources are shallowly embedded: Rust strings become `List Char`,
byte buffers become `List Nat` (each element a byte value), fallible
computations become an outcome type `ROut` that distinguishes `Ok`, typed
`Err`, and panics (`unwrap`, `expect`, out-of-bounds indexing).

External library functions used by the sources (the `idna` crate, base64
from `rustc_serialize`, JSON from `serde_json`, RSA from `openssl`) are
modelled by concrete Lean functions; the comments on each such definition
state the modelling choices.
-/

namespace Ladaemon

/-- Outcome of a Rust computation: an `Ok` value, a typed `Err` value, or a
panic (`unwrap`/`expect` failure, out-of-bounds indexing). -/
inductive ROut (ε α : Type) where
  | ok (a : α)
  | err (e : ε)
  | panicked
deriving DecidableEq, Repr

/-- Rust strings are modelled as lists of characters. -/
abbrev Str := List Char

/-- Model of Rust `str::split(sep).collect::<Vec<_>>()`: split at every
occurrence of the separator; the result always has at least one (possibly
empty) part. -/
def splitSep (sep : Char) : Str → List Str
  | [] => [[]]
  | c :: rest =>
    if c = sep then [] :: splitSep sep rest
    else
      match splitSep sep rest with
      | [] => [[c]]
      | l :: ls => (c :: l) :: ls

/-! Domain validator (`src/utils/domain_validator.rs`). -/

/-- Model of a single rule in the valid suffixes list
(`SuffixRule` in `domain_validator.rs`). -/
structure SuffixRule where
  /-- Labels to match, some of which may be `*`. -/
  labels : List Str
  /-- Whether this is an exception rule. -/
  exception : Bool
deriving DecidableEq, Repr

/-- Errors produced by `DomainValidator::validate`. -/
inductive DomainValidationError where
  | invalidIdna
  | blocked
  | containsEmptyLabels
  | invalidTld
  | invalidSuffix
deriving DecidableEq, Repr

/-- The validator configuration (`DomainValidator` in `domain_validator.rs`).
The Rust `HashSet<String>` fields are modelled as lists; only membership is
ever observed. -/
structure DomainValidator where
  allowed_domains : List Str
  allowed_domains_only : Bool
  blocked_domains : List Str
  valid_tlds : List Str
  valid_suffixes : List SuffixRule
deriving DecidableEq, Repr

/-- Strip a trailing dot if present (`domain_validator.rs` lines 100-104:
`if domain.ends_with('.') { &domain[..(domain.len() - 1)] }`). -/
def stripTrailingDot (s : Str) : Str :=
  if s.getLast? = some '.' then s.dropLast else s

/-- Whether a suffix rule matches a domain, given as its list of labels:
the rule may not be longer than the domain (the `checked_sub` in the
source), and each of the last `n` labels of the domain must equal the
corresponding rule label, or the rule label is `*`
(`domain_validator.rs` lines 140-154). -/
def ruleMatches (rule : SuffixRule) (domain : List Str) : Bool :=
  if rule.labels.length ≤ domain.length then
    let tail := domain.drop (domain.length - rule.labels.length)
    (rule.labels.zip tail).all fun p => p.1 == ['*'] || p.2 == p.1
  else false

/-- The loop of `DomainValidator::validate_suffix` (`domain_validator.rs`
lines 134-174), with the mutable `matched` variable made an explicit
accumulator. A matching exception rule returns immediately; otherwise the
rule with the most labels is kept (on ties the source keeps the later
rule, which has the same label count). -/
def validateSuffixLoop (domain : List Str) (rules : List SuffixRule)
    (matched : Option SuffixRule) : Bool :=
  match rules with
  | [] =>
    match matched with
    | some rule => decide (rule.labels.length < domain.length)
    | none => decide (1 < domain.length)
  | rule :: rest =>
    if ruleMatches rule domain then
      if rule.exception then true
      else
        validateSuffixLoop domain rest
          (match matched with
           | some other =>
             if rule.labels.length < other.labels.length then some other else some rule
           | none => some rule)
    else validateSuffixLoop domain rest matched

/-- `DomainValidator::validate_suffix`. -/
def validate_suffix (v : DomainValidator) (domain : List Str) : Bool :=
  validateSuffixLoop domain v.valid_suffixes none

/-- The label checks of `DomainValidator::validate` (`domain_validator.rs`
lines 114-128): no empty labels, last label a valid TLD, suffix rules
satisfied. The `.unwrap()` on `domain.last()` is embedded as a `panicked`
outcome when the label list is empty. -/
def validateLabels (v : DomainValidator) (labels : List Str) :
    ROut DomainValidationError Unit :=
  if labels.any List.isEmpty then .err .containsEmptyLabels
  else
    match labels.getLast? with
    | none => .panicked
    | some tld =>
      if !v.valid_tlds.contains tld then .err .invalidTld
      else if !validate_suffix v labels then .err .invalidSuffix
      else .ok ()

/-- `DomainValidator::validate` after normalization and stripping of a
trailing dot (`domain_validator.rs` lines 106-128): allow-list
short-circuit, block-list, then label checks. -/
def validateStripped (v : DomainValidator) (dom : Str) :
    ROut DomainValidationError Unit :=
  if v.allowed_domains.contains dom then .ok ()
  else if v.allowed_domains_only || v.blocked_domains.contains dom then .err .blocked
  else validateLabels v (splitSep '.' dom)

/-- `DomainValidator::validate` (`domain_validator.rs` lines 96-129).

The external `idna::domain_to_ascii` library function is passed in as an
explicit parameter `toAscii` (returning `none` where the library returns
`Err`); a concrete model of it is `idnaToAscii` below. -/
def validate (toAscii : Str → Option Str) (v : DomainValidator) (domain : Str) :
    ROut DomainValidationError Unit :=
  match toAscii domain with
  | none => .err .invalidIdna
  | some dom => validateStripped v (stripTrailingDot dom)

/-- `DomainValidator::add_allowed_domain` (`domain_validator.rs` lines
53-57): punycode-normalize, then insert into the allow list. -/
def add_allowed_domain (toAscii : Str → Option Str) (v : DomainValidator) (domain : Str) :
    Option DomainValidator :=
  (toAscii domain).map fun d => { v with allowed_domains := v.allowed_domains.insert d }

/-- Concrete model of the external `idna::domain_to_ascii`, restricted to
ASCII inputs: uppercase ASCII letters are lowercased; lowercase letters,
digits, hyphens and dots pass through; anything else is rejected. Real
IDNA additionally maps or punycode-encodes Unicode labels, which none of
the concrete inputs in this development use. Empty labels are accepted,
as they are by the crate's `domain_to_ascii` default flags. -/
def idnaChar (c : Char) : Option Char :=
  if 'A' ≤ c ∧ c ≤ 'Z' then some c.toLower
  else if ('a' ≤ c ∧ c ≤ 'z') ∨ ('0' ≤ c ∧ c ≤ '9') ∨ c = '-' ∨ c = '.' then some c
  else none

/-- Concrete ASCII model of `idna::domain_to_ascii`; see `idnaChar`. -/
def idnaToAscii (s : Str) : Option Str :=
  s.mapM idnaChar

/-- Maximum of a list of naturals, `none` on the empty list. -/
def maxNat? : List Nat → Option Nat
  | [] => none
  | n :: ns =>
    match maxNat? ns with
    | none => some n
    | some m => some (max n m)

/-- Merge of two optional maxima. -/
def mergeMax : Option Nat → Option Nat → Option Nat
  | none, x => x
  | some a, none => some a
  | some a, some b => some (max a b)

/-- Statement of the suffix-check semantics, following the words of the
specification: if some exception rule matches, the domain passes; otherwise
if some non-exception rule matches and the longest such match has `n`
labels, the domain passes iff it has strictly more than `n` labels; if no
rule matches, the domain passes iff it has at least 2 labels. -/
def suffixCheckSpec (rules : List SuffixRule) (domain : List Str) : Bool :=
  if rules.any fun r => r.exception && ruleMatches r domain then true
  else
    match maxNat? ((rules.filter fun r => !r.exception && ruleMatches r domain).map
        fun r => r.labels.length) with
    | some n => decide (n < domain.length)
    | none => decide (2 ≤ domain.length)

/-- Validator used for claim 5's witness. -/
def v5w : DomainValidator :=
  { allowed_domains := ["foo.example".data]
    allowed_domains_only := true
    blocked_domains := []
    valid_tlds := []
    valid_suffixes := [] }

/-- Validator used in the counterexample to claim 5. -/
def v5c : DomainValidator :=
  { allowed_domains := ["example.com.".data]
    allowed_domains_only := true
    blocked_domains := []
    valid_tlds := []
    valid_suffixes := [] }

/-- Validator used for claim 6's witness. -/
def v6w : DomainValidator :=
  { allowed_domains := []
    allowed_domains_only := false
    blocked_domains := []
    valid_tlds := ["ck".data]
    valid_suffixes := [⟨["*".data, "ck".data], false⟩, ⟨["www".data, "ck".data], true⟩] }

/-- Validator used in the counterexample to claim 7 and its witness. -/
def v7c : DomainValidator :=
  { allowed_domains := ["example.com".data]
    allowed_domains_only := false
    blocked_domains := []
    valid_tlds := []
    valid_suffixes := [] }

/-! String list file reader (`src/config/string_list.rs`). -/

/-- IO errors are opaque to the reader, which only passes them through;
they are modelled as an error code. -/
abbrev IoErr := Nat

/-- Rust `char::is_whitespace` (Unicode `White_Space`), modelled by Lean's
`Char.isWhitespace`; the two agree on the ASCII content of the
configuration files this reader is used on. -/
def isWs (c : Char) : Bool := c.isWhitespace

/-- Model of `str::split_whitespace().next()`: the first maximal run of
non-whitespace characters, if the line has one. -/
def firstToken (s : Str) : Option Str :=
  let t := (s.dropWhile isWs).takeWhile fun c => !isWs c
  if t.isEmpty then none else some t

/-- The full output of iterating `StringListFileReader::next`
(`string_list.rs` lines 175-191) over a file, modelled as the list of its
line-read results. An `Err` line is yielded as an individual error and
iteration continues; an `Ok` line yields its first whitespace-delimited
token, unless there is no token, the token is empty, or the token starts
with `//` or `#`, in which case the loop moves on to the next line. -/
def readerOutputs : List (Except IoErr Str) → List (Except IoErr Str)
  | [] => []
  | .error e :: rest => .error e :: readerOutputs rest
  | .ok data :: rest =>
    match firstToken data with
    | some tok =>
      if !tok.isEmpty && !"//".data.isPrefixOf tok && !"#".data.isPrefixOf tok then
        .ok tok :: readerOutputs rest
      else readerOutputs rest
    | none => readerOutputs rest

/-- The claim's description of what a single line contributes: an error
line contributes its error; an ok line contributes its first
whitespace-delimited token, unless there is none or it begins `//` or
`#`. -/
def readerKeep : Except IoErr Str → Option (Except IoErr Str)
  | .error e => some (.error e)
  | .ok data =>
    (firstToken data).bind fun tok =>
      if "//".data.isPrefixOf tok || "#".data.isPrefixOf tok then none
      else some (.ok tok)

/-- The claim's description of the reader: each line's contribution
(`readerKeep`), in order. -/
def readerSpec (lines : List (Except IoErr Str)) : List (Except IoErr Str) :=
  lines.filterMap readerKeep

/-! Crypto (`src/crypto.rs`) and the external building blocks it uses.
Byte buffers are modelled as lists of byte values (`Bytes`). -/

/-- Byte buffers. -/
abbrev Bytes := List Nat

/-- Big-endian minimal byte representation of a natural number, as
produced by openssl's `BigNum::to_vec` (the empty list for zero). -/
def natToBytes (n : Nat) : Bytes :=
  if h : n = 0 then [] else natToBytes (n / 256) ++ [n % 256]
termination_by n
decreasing_by exact Nat.div_lt_self (Nat.pos_of_ne_zero h) (by omega)

/-- Big-endian byte interpretation, as openssl's `BigNum::new_from_slice`. -/
def bytesToNat (bs : Bytes) : Nat :=
  bs.foldl (fun acc b => acc * 256 + b) 0

/-- The base64 alphabet character for a sextet value, URL-safe variant
(`rustc_serialize`'s `URL_SAFE` character set). -/
def b64Char (n : Nat) : Char :=
  if n < 26 then Char.ofNat (65 + n)
  else if n < 52 then Char.ofNat (97 + (n - 26))
  else if n < 62 then Char.ofNat (48 + (n - 52))
  else if n = 62 then '-'
  else '_'

/-- Sextet values of a byte sequence: groups of three bytes give four
sextets, a final group of one or two bytes gives two or three sextets. -/
def b64Sextets : Bytes → List Nat
  | b1 :: b2 :: b3 :: rest =>
    (b1 / 4) :: ((b1 % 4) * 16 + b2 / 16) :: ((b2 % 16) * 4 + b3 / 64) :: (b3 % 64) ::
      b64Sextets rest
  | [b1, b2] => [b1 / 4, (b1 % 4) * 16 + b2 / 16, (b2 % 16) * 4]
  | [b1] => [b1 / 4, (b1 % 4) * 16]
  | [] => []

/-- `ToBase64::to_base64(URL_SAFE)` from `rustc_serialize`: the sextet
values rendered in the URL-safe alphabet, without padding or line
wrapping. -/
def toBase64 (bs : Bytes) : Str :=
  (b64Sextets bs).map b64Char

/-- Sextet value of a base64 character for `rustc_serialize`'s
`from_base64`, which accepts both the standard and the URL-safe
alphabet. -/
def b64Val (c : Char) : Option Nat :=
  if 'A' ≤ c ∧ c ≤ 'Z' then some (c.toNat - 65)
  else if 'a' ≤ c ∧ c ≤ 'z' then some (c.toNat - 97 + 26)
  else if '0' ≤ c ∧ c ≤ '9' then some (c.toNat - 48 + 52)
  else if c = '+' ∨ c = '-' then some 62
  else if c = '/' ∨ c = '_' then some 63
  else none

/-- Sextet values of a base64 string; `none` if some character is in
neither alphabet. -/
def b64Vals : Str → Option (List Nat)
  | [] => some []
  | c :: rest =>
    match b64Val c, b64Vals rest with
    | some v, some vs => some (v :: vs)
    | _, _ => none

/-- Decode a list of sextet values into bytes: groups of four sextets give
three bytes; a final group of two or three sextets gives one or two bytes;
a single leftover sextet is an invalid length. -/
def b64Decode : List Nat → Option Bytes
  | [] => some []
  | [_] => none
  | [v1, v2] => some [v1 * 4 + v2 / 16]
  | [v1, v2, v3] => some [v1 * 4 + v2 / 16, (v2 % 16) * 16 + v3 / 4]
  | v1 :: v2 :: v3 :: v4 :: rest =>
    (b64Decode rest).map fun bs =>
      (v1 * 4 + v2 / 16) :: ((v2 % 16) * 16 + v3 / 4) :: ((v3 % 4) * 64 + v4) :: bs

/-- Strip trailing `=` padding characters. -/
def stripPad (t : Str) : Str :=
  (t.reverse.dropWhile fun c => c == '=').reverse

/-- `FromBase64::from_base64` from `rustc_serialize`: newlines are
ignored, `=` is accepted only as at most two characters of trailing
padding, every other character must be in the standard or URL-safe
alphabet, and a single leftover character is an invalid length. -/
def fromBase64 (s : Str) : Option Bytes :=
  if (s.filter fun c => !(c == '\r' || c == '\n')).length -
      (stripPad (s.filter fun c => !(c == '\r' || c == '\n'))).length > 2
    ∨ (stripPad (s.filter fun c => !(c == '\r' || c == '\n'))).contains '=' then none
  else (b64Vals (stripPad (s.filter fun c => !(c == '\r' || c == '\n')))).bind b64Decode

/-- serde_json's `Value`, as used by `crypto.rs`: null, booleans, integers
(serde's `I64`/`U64`; floating-point numbers are outside this model),
strings, arrays, and objects. serde's objects are `BTreeMap<String,
Value>`, modelled as an association list kept sorted by key. -/
inductive Value where
  | nullV
  | boolV (b : Bool)
  | intV (i : Int)
  | strV (s : Str)
  | arrV (vs : List Value)
  | objV (kvs : List (Str × Value))

/-- Strict byte-lexicographic order on strings (Rust's `Ord` for
`String`; UTF-8 byte order agrees with code-point order). -/
def strLt : Str → Str → Bool
  | [], [] => false
  | [], _ :: _ => true
  | _ :: _, [] => false
  | a :: as, b :: bs =>
    if a.toNat < b.toNat then true
    else if b.toNat < a.toNat then false
    else strLt as bs

/-- `BTreeMap::insert` on the sorted association list: insert in order,
replacing an existing binding for the same key. -/
def objInsert (k : Str) (v : Value) : List (Str × Value) → List (Str × Value)
  | [] => [(k, v)]
  | (k2, v2) :: rest =>
    if strLt k k2 then (k, v) :: (k2, v2) :: rest
    else if strLt k2 k then (k2, v2) :: objInsert k v rest
    else (k, v) :: rest

/-- Association-list lookup (`BTreeMap::get`). -/
def lookupKV : List (Str × Value) → Str → Option Value
  | [], _ => none
  | (k2, v2) :: rest, k => if k2 == k then some v2 else lookupKV rest k

/-- serde's `Value::find`: the value at a key when the value is an
object, `None` otherwise. -/
def Value.find (v : Value) (k : Str) : Option Value :=
  match v with
  | .objV kvs => lookupKV kvs k
  | _ => none

/-- serde's `Value::as_string`. -/
def Value.asString : Value → Option Str
  | .strV s => some s
  | _ => none

/-- serde's `Value::as_array`. -/
def Value.asArray : Value → Option (List Value)
  | .arrV vs => some vs
  | _ => none

/-- Lowercase hexadecimal digit, as a byte. -/
def hexDigitChar (n : Nat) : Nat :=
  if n < 10 then 48 + n else 87 + n

/-- UTF-8 encoding of a code point. -/
def utf8Char (n : Nat) : Bytes :=
  if n < 128 then [n]
  else if n < 2048 then [192 + n / 64, 128 + n % 64]
  else if n < 65536 then [224 + n / 4096, 128 + (n / 64) % 64, 128 + n % 64]
  else [240 + n / 262144, 128 + (n / 4096) % 64, 128 + (n / 64) % 64, 128 + n % 64]

/-- serde_json's string escaping: quote and backslash are escaped, the
control characters with short escapes use them, other control characters
become `\u00XX`, and everything else is emitted as UTF-8. -/
def escChar (c : Char) : Bytes :=
  if c = '"' then [92, 34]
  else if c = '\\' then [92, 92]
  else if c.toNat = 8 then [92, 98]
  else if c.toNat = 9 then [92, 116]
  else if c.toNat = 10 then [92, 110]
  else if c.toNat = 12 then [92, 102]
  else if c.toNat = 13 then [92, 114]
  else if c.toNat < 32 then
    [92, 117, 48, 48, hexDigitChar (c.toNat / 16), hexDigitChar (c.toNat % 16)]
  else utf8Char c.toNat

/-- A JSON string literal: quoted and escaped. -/
def strJsonBytes (s : Str) : Bytes :=
  34 :: ((s.map escChar).flatten ++ [34])

/-- Decimal digits of a natural number, as bytes. -/
def natDigits (n : Nat) : Bytes :=
  if h : n < 10 then [48 + n] else natDigits (n / 10) ++ [48 + n % 10]
termination_by n
decreasing_by exact Nat.div_lt_self (by omega) (by omega)

/-- Decimal rendering of an integer, as bytes. -/
def intJsonBytes : Int → Bytes
  | .ofNat n => natDigits n
  | .negSucc m => 45 :: natDigits (m + 1)

mutual
/-- `serde_json::to_string` composed with `as_bytes`: the UTF-8 JSON
serialization of a value. Objects print their bindings in order (they are
kept sorted, mirroring `BTreeMap` iteration order). -/
def jsonBytes : Value → Bytes
  | .nullV => [110, 117, 108, 108]
  | .boolV true => [116, 114, 117, 101]
  | .boolV false => [102, 97, 108, 115, 101]
  | .intV i => intJsonBytes i
  | .strV s => strJsonBytes s
  | .arrV vs => 91 :: (jsonArrBytes vs ++ [93])
  | .objV kvs => 123 :: (jsonObjBytes kvs ++ [125])

/-- Comma-separated serialization of array elements. -/
def jsonArrBytes : List Value → Bytes
  | [] => []
  | [v] => jsonBytes v
  | v :: vs => jsonBytes v ++ (44 :: jsonArrBytes vs)

/-- Comma-separated serialization of object bindings. -/
def jsonObjBytes : List (Str × Value) → Bytes
  | [] => []
  | [(k, v)] => strJsonBytes k ++ (58 :: jsonBytes v)
  | (k, v) :: kvs => strJsonBytes k ++ (58 :: jsonBytes v) ++ (44 :: jsonObjBytes kvs)
end

/-- Drop leading JSON whitespace. -/
def skipWs : Bytes → Bytes
  | b :: rest => if b = 32 ∨ b = 9 ∨ b = 10 ∨ b = 13 then skipWs rest else b :: rest
  | [] => []

/-- Value of a hexadecimal digit byte. -/
def hexVal (b : Nat) : Option Nat :=
  if 48 ≤ b ∧ b ≤ 57 then some (b - 48)
  else if 97 ≤ b ∧ b ≤ 102 then some (b - 87)
  else if 65 ≤ b ∧ b ≤ 70 then some (b - 55)
  else none

/-- Prepend a character to a string-parse result. -/
def mapCons (c : Char) : Option (Str × Bytes) → Option (Str × Bytes)
  | some (s, r) => some (c :: s, r)
  | none => none

/-- Decode a single string item after the opening quote (one escape
sequence or one UTF-8 character): the named escapes, `\uXXXX` escapes of
valid scalar values, and multi-byte UTF-8 sequences (rejecting overlong
encodings and surrogates, as serde does; surrogate pairs in `\u` escapes
are not modelled — the serializer never emits them). Returns the decoded
character and the remaining bytes. -/
def decodeUnit (b : Nat) (rest : Bytes) : Option (Char × Bytes) :=
  if b = 92 then
    match rest with
    | [] => none
    | e :: rest2 =>
      if e = 34 then some ('"', rest2)
      else if e = 92 then some ('\\', rest2)
      else if e = 47 then some ('/', rest2)
      else if e = 98 then some (Char.ofNat 8, rest2)
      else if e = 116 then some (Char.ofNat 9, rest2)
      else if e = 110 then some (Char.ofNat 10, rest2)
      else if e = 102 then some (Char.ofNat 12, rest2)
      else if e = 114 then some (Char.ofNat 13, rest2)
      else if e = 117 then
        match rest2 with
        | h1 :: h2 :: h3 :: h4 :: rest3 =>
          match hexVal h1 with
          | none => none
          | some x1 =>
            match hexVal h2 with
            | none => none
            | some x2 =>
              match hexVal h3 with
              | none => none
              | some x3 =>
                match hexVal h4 with
                | none => none
                | some x4 =>
                  if ((x1 * 16 + x2) * 16 + x3) * 16 + x4 < 55296 ∨
                      57344 ≤ ((x1 * 16 + x2) * 16 + x3) * 16 + x4 then
                    some (Char.ofNat (((x1 * 16 + x2) * 16 + x3) * 16 + x4), rest3)
                  else none
        | _ => none
      else none
  else if b < 32 then none
  else if b < 128 then some (Char.ofNat b, rest)
  else if b < 192 then none
  else if b < 224 then
    match rest with
    | b1 :: rest2 =>
      if 128 ≤ b1 ∧ b1 < 192 then
        if 128 ≤ (b - 192) * 64 + (b1 - 128) then
          some (Char.ofNat ((b - 192) * 64 + (b1 - 128)), rest2)
        else none
      else none
    | [] => none
  else if b < 240 then
    match rest with
    | b1 :: b2 :: rest2 =>
      if (128 ≤ b1 ∧ b1 < 192) ∧ (128 ≤ b2 ∧ b2 < 192) then
        if 2048 ≤ (b - 224) * 4096 + (b1 - 128) * 64 + (b2 - 128) ∧
            ((b - 224) * 4096 + (b1 - 128) * 64 + (b2 - 128) < 55296 ∨
             57344 ≤ (b - 224) * 4096 + (b1 - 128) * 64 + (b2 - 128)) then
          some (Char.ofNat ((b - 224) * 4096 + (b1 - 128) * 64 + (b2 - 128)), rest2)
        else none
      else none
    | _ => none
  else if b < 248 then
    match rest with
    | b1 :: b2 :: b3 :: rest2 =>
      if (128 ≤ b1 ∧ b1 < 192) ∧ (128 ≤ b2 ∧ b2 < 192) ∧ (128 ≤ b3 ∧ b3 < 192) then
        if 65536 ≤ (b - 240) * 262144 + (b1 - 128) * 4096 + (b2 - 128) * 64 + (b3 - 128) ∧
            (b - 240) * 262144 + (b1 - 128) * 4096 + (b2 - 128) * 64 + (b3 - 128) <
              1114112 then
          some
            (Char.ofNat
              ((b - 240) * 262144 + (b1 - 128) * 4096 + (b2 - 128) * 64 + (b3 - 128)),
              rest2)
        else none
      else none
    | _ => none
  else none

/-- JSON string-body parser (after the opening quote): decode items with
`decodeUnit` until the closing quote. The fuel argument is an embedding
device to make the recursion structural; callers pass the byte count,
which always suffices (every item consumes at least one byte). -/
def parseStr : Nat → Bytes → Option (Str × Bytes)
  | 0, _ => none
  | _ + 1, [] => none
  | fuel + 1, b :: rest =>
    if b = 34 then some ([], rest)
    else
      match decodeUnit b rest with
      | none => none
      | some (c, rest2) => mapCons c (parseStr fuel rest2)

/-- Whether a byte is a decimal digit. -/
def isDigit (b : Nat) : Bool :=
  decide (48 ≤ b ∧ b ≤ 57)

/-- Value of a run of decimal digit bytes. -/
def digitsVal (ds : Bytes) : Nat :=
  ds.foldl (fun a b => a * 10 + (b - 48)) 0

/-- JSON number parser, restricted to integers (the embedded code never
produces floating-point values). -/
def parseNum : Bytes → Option (Value × Bytes)
  | [] => none
  | b :: rest =>
    if b = 45 then
      if (rest.takeWhile isDigit).isEmpty then none
      else some (.intV (-(digitsVal (rest.takeWhile isDigit) : Int)), rest.dropWhile isDigit)
    else
      if ((b :: rest).takeWhile isDigit).isEmpty then none
      else some (.intV (digitsVal ((b :: rest).takeWhile isDigit)),
        (b :: rest).dropWhile isDigit)

/-- The tail of a `null` literal after the initial `n`. -/
def litNull : Bytes → Option (Value × Bytes)
  | 117 :: 108 :: 108 :: r => some (.nullV, r)
  | _ => none

/-- The tail of a `true` literal after the initial `t`. -/
def litTrue : Bytes → Option (Value × Bytes)
  | 114 :: 117 :: 101 :: r => some (.boolV true, r)
  | _ => none

/-- The tail of a `false` literal after the initial `f`. -/
def litFalse : Bytes → Option (Value × Bytes)
  | 97 :: 108 :: 115 :: 101 :: r => some (.boolV false, r)
  | _ => none

mutual
/-- Fuelled JSON value parser (`serde_json::from_slice`'s grammar,
restricted to integer numbers). Objects are accumulated with
`objInsert`, mirroring collection into a `BTreeMap`. -/
def parseVal : Nat → Bytes → Option (Value × Bytes)
  | 0, _ => none
  | fuel + 1, bs =>
    match skipWs bs with
    | [] => none
    | b :: rest =>
      if b = 110 then litNull rest
      else if b = 116 then litTrue rest
      else if b = 102 then litFalse rest
      else if b = 34 then
        match parseStr (rest.length + 1) rest with
        | some (s, r) => some (.strV s, r)
        | none => none
      else if b = 91 then
        match skipWs rest with
        | b2 :: r => if b2 = 93 then some (.arrV [], r) else parseArrItems fuel rest
        | [] => parseArrItems fuel rest
      else if b = 123 then
        match skipWs rest with
        | b2 :: r => if b2 = 125 then some (.objV [], r) else parseObjItems fuel rest []
        | [] => parseObjItems fuel rest []
      else if b = 45 ∨ isDigit b then parseNum (b :: rest)
      else none

/-- Parse the elements of a non-empty array, up to and including the
closing bracket. -/
def parseArrItems : Nat → Bytes → Option (Value × Bytes)
  | 0, _ => none
  | fuel + 1, bs =>
    match parseVal fuel bs with
    | none => none
    | some (v, r) =>
      match skipWs r with
      | 44 :: r2 =>
        match parseArrItems fuel r2 with
        | some (.arrV vs, r3) => some (.arrV (v :: vs), r3)
        | _ => none
      | 93 :: r2 => some (.arrV [v], r2)
      | _ => none

/-- Parse the bindings of a non-empty object, up to and including the
closing brace, collecting them with `objInsert`. -/
def parseObjItems : Nat → Bytes → List (Str × Value) → Option (Value × Bytes)
  | 0, _, _ => none
  | fuel + 1, bs, acc =>
    match skipWs bs with
    | 34 :: rest =>
      match parseStr (rest.length + 1) rest with
      | none => none
      | some (k, r) =>
        match skipWs r with
        | 58 :: r2 =>
          match parseVal fuel r2 with
          | none => none
          | some (v, r3) =>
            match skipWs r3 with
            | 44 :: r4 => parseObjItems fuel r4 (objInsert k v acc)
            | 125 :: r4 => some (.objV (objInsert k v acc), r4)
            | _ => none
        | _ => none
    | _ => none
end

/-- `serde_json::from_slice`: parse one value with enough fuel, and
require only whitespace to remain. -/
def from_slice (bs : Bytes) : Option Value :=
  match parseVal (bs.length + 1) bs with
  | some (v, r) => if (skipWs r).isEmpty then some v else none
  | none => none

/-- All keys of the tail are strictly greater than `k`. -/
def allLt (k : Str) : List Str → Bool
  | [] => true
  | k2 :: rest => strLt k k2 && allLt k rest

/-- Keys in strictly ascending order (pairwise). -/
def keysSorted : List Str → Bool
  | [] => true
  | k :: rest => allLt k rest && keysSorted rest

mutual
/-- Well-formedness of a modelled `Value`: object bindings are strictly
sorted by key, recursively. In Rust every `serde_json::Value` satisfies
this by construction (`BTreeMap` keeps its keys sorted); it is a
hypothesis here only because the model uses plain association lists. -/
def wfValue : Value → Bool
  | .arrV vs => wfList vs
  | .objV kvs => keysSorted (kvs.map fun p => p.1) && wfKVs kvs
  | _ => true

/-- All values of a list are well-formed. -/
def wfList : List Value → Bool
  | [] => true
  | v :: vs => wfValue v && wfList vs

/-- All values of an association list are well-formed. -/
def wfKVs : List (Str × Value) → Bool
  | [] => true
  | (_, v) :: kvs => wfValue v && wfKVs kvs
end

mutual
/-- Fuel needed by `parseVal` to parse a serialized value. -/
def vFuel : Value → Nat
  | .arrV [] => 1
  | .arrV (v :: vs) => 1 + lFuel (v :: vs)
  | .objV [] => 1
  | .objV (kv :: kvs) => 1 + kvFuel (kv :: kvs)
  | _ => 1

/-- Fuel needed by `parseArrItems`. -/
def lFuel : List Value → Nat
  | [] => 0
  | v :: vs => 1 + max (vFuel v) (lFuel vs)

/-- Fuel needed by `parseObjItems`. -/
def kvFuel : List (Str × Value) → Nat
  | [] => 0
  | (_, v) :: kvs => 1 + max (vFuel v) (kvFuel kvs)
end

/-- Whether the byte list does not start with a decimal digit (used to
state that a serialized number is followed by a delimiter). -/
def noLeadDigit : Bytes → Bool
  | [] => true
  | b :: _ => !isDigit b

/-! Crypto (`src/crypto.rs`). openssl's RSA is modelled as textbook RSA
on naturals, and SHA-256 as the identity on byte strings: the model
keeps the digest an injective deterministic function of the message and
does not model the compression function or PKCS#1 padding. -/

/-- An RSA private key as held by openssl's `PKey`: modulus, public
exponent, private exponent. -/
structure RsaKey where
  n : Nat
  e : Nat
  d : Nat
deriving DecidableEq, Repr

/-- The public components (`RSA::from_public_components`). -/
structure RsaPub where
  n : Nat
  e : Nat
deriving DecidableEq, Repr

/-- `NamedKey` from `crypto.rs`. -/
structure NamedKey where
  id : Str
  key : RsaKey
deriving DecidableEq, Repr

/-- The slice of `AppConfig` that `crypto.rs` reads: the signing key
ring. -/
structure AppConfig where
  keys : List NamedKey
deriving DecidableEq, Repr

/-- `openssl::crypto::hash::hash(SHA256, ..)`, modelled as the
identity. -/
def sha256 (bs : Bytes) : Bytes := bs

/-- `PKey::sign`: textbook RSA signature of a digest. -/
def pkeySign (k : RsaKey) (digest : Bytes) : Bytes :=
  natToBytes (bytesToNat digest ^ k.d % k.n)

/-- `PKey::verify`: textbook RSA verification of a digest against a
signature. -/
def pkeyVerify (k : RsaPub) (digest sig : Bytes) : Bool :=
  bytesToNat sig ^ k.e % k.n = bytesToNat digest % k.n

/-- A usable RSA key pair: verifying recovers the signed residue. For a
real RSA key (`e * d ≡ 1 mod λ(n)`, n square-free) this always holds. -/
def ValidRsa (k : RsaKey) : Prop :=
  0 < k.n ∧ ∀ m : Nat, m < k.n → (m ^ k.d % k.n) ^ k.e % k.n = m

instance (k : RsaKey) : Decidable (ValidRsa k) := by
  unfold ValidRsa
  infer_instance

/-- `json_big_num` from `jwk_key_set`: URL-safe base64 of the big-endian
bytes of the number. -/
def json_big_num (n : Nat) : Str := toBase64 (natToBytes n)

/-- One JWKS entry as built by `jwk_key_set`'s `push_object` closure:
successive `ObjectBuilder::insert`s of kty, alg, use, kid, n, e into a
`BTreeMap`. -/
def jwkEntry (key : NamedKey) : Value :=
  .objV (objInsert "e".data (.strV (json_big_num key.key.e))
    (objInsert "n".data (.strV (json_big_num key.key.n))
      (objInsert "kid".data (.strV key.id)
        (objInsert "use".data (.strV "sig".data)
          (objInsert "alg".data (.strV "RS256".data)
            (objInsert "kty".data (.strV "RSA".data) []))))))

/-- `jwk_key_set` from `crypto.rs`: `{"keys": [..entries..]}`. -/
def jwk_key_set (app : AppConfig) : Value :=
  .objV (objInsert "keys".data (.arrV (app.keys.map jwkEntry)) [])

/-- The filter closure of `jwk_key_set_find` on one JWKS entry.
`find("kid").unwrap().as_string().unwrap()` panics when the field is
missing or not a string; `&&` short-circuits, so `use` is only
inspected when the kid matches. -/
def entryMatches (kid : Str) (kobj : Value) : ROut Unit Bool :=
  match (kobj.find "kid".data).bind Value.asString with
  | none => .panicked
  | some kidv =>
    if kidv = kid then
      match (kobj.find "use".data).bind Value.asString with
      | none => .panicked
      | some usev => .ok (usev == "sig".data)
    else .ok false

/-- `iter().filter(..).collect::<Vec<_>>()` over the JWKS entries, with
the panics of the filter closure surfaced in order. -/
def filterMatching (kid : Str) : List Value → ROut Unit (List Value)
  | [] => .ok []
  | kobj :: rest =>
    match entryMatches kid kobj with
    | .panicked => .panicked
    | .err e => .err e
    | .ok b =>
      match filterMatching kid rest with
      | .panicked => .panicked
      | .err e => .err e
      | .ok tl => .ok (if b then kobj :: tl else tl)

/-- `jwk_key_set_find` from `crypto.rs`. Every `unwrap` of the source is
a `panicked` outcome; `matching[0]` on an empty vector is also a panic
(it is unreachable, being guarded by the length check). -/
def jwk_key_set_find (set : Value) (kid : Str) : ROut Unit RsaPub :=
  match (set.find "keys".data).bind Value.asArray with
  | none => .panicked
  | some keys =>
    match filterMatching kid keys with
    | .panicked => .panicked
    | .err e => .err e
    | .ok matching =>
      if matching.length ≠ 1 then .err ()
      else
        match matching with
        | [] => .panicked
        | m0 :: _ =>
          match (m0.find "n".data).bind Value.asString with
          | none => .panicked
          | some n_b64 =>
            match (m0.find "e".data).bind Value.asString with
            | none => .panicked
            | some e_b64 =>
              match fromBase64 n_b64, fromBase64 e_b64 with
              | some nb, some eb => .ok ⟨bytesToNat nb, bytesToNat eb⟩
              | _, _ => .panicked

/-- `verify_jws` from `crypto.rs`, with each `unwrap` modelled as a
`panicked` outcome, in source evaluation order: `parts[0]` decode and
parse, `kid` extraction, key lookup (`try!` propagates its `Err`),
`parts[1]` and `parts[2]` indexing, signature decode, signature check,
payload decode and parse. `split` always yields at least one part, so
the empty-split arm is unreachable. -/
def verify_jws (jws : Str) (key_set : Value) : ROut Unit Value :=
  match splitSep '.' jws with
  | [] => .panicked
  | p0 :: parts1 =>
    match fromBase64 p0 with
    | none => .panicked
    | some hb =>
      match from_slice hb with
      | none => .panicked
      | some jwt_header =>
        match (jwt_header.find "kid".data).bind Value.asString with
        | none => .panicked
        | some kid =>
          match jwk_key_set_find key_set kid with
          | .panicked => .panicked
          | .err e => .err e
          | .ok pub_key =>
            match parts1 with
            | [] => .panicked
            | p1 :: parts2 =>
              match parts2 with
              | [] => .panicked
              | p2 :: _ =>
                match fromBase64 p2 with
                | none => .panicked
                | some sig =>
                  if pkeyVerify pub_key (sha256 ((p0 ++ ('.' :: p1)).map Char.toNat)) sig
                  then
                    match fromBase64 p1 with
                    | none => .panicked
                    | some pb =>
                      match from_slice pb with
                      | none => .panicked
                      | some payload => .ok payload
                  else .err ()

/-- The header `sign_jws` serializes: `ObjectBuilder::new()
.insert("kid", ..).insert("alg", "RS256")` (the `BTreeMap` keeps the
keys sorted). -/
def signHeader (key : NamedKey) : Value :=
  .objV (objInsert "alg".data (.strV "RS256".data)
    (objInsert "kid".data (.strV key.id) []))

/-- A JWS header `{"alg": .., "kid": ..}` with an arbitrary `alg`
string: the shape of `sign_jws`'s header, generalized to probe headers
whose `alg` is not `"RS256"`. -/
def algHeader (kid alg : Str) : Value :=
  .objV (objInsert "alg".data (.strV alg) (objInsert "kid".data (.strV kid) []))

/-- A JWKS entry on which `jwk_key_set_find`'s filter cannot panic:
`kid` and `use` are present and are strings. -/
def entryShaped (v : Value) : Bool :=
  ((v.find "kid".data).bind Value.asString).isSome &&
  ((v.find "use".data).bind Value.asString).isSome

/-- The pure match predicate of `jwk_key_set_find`: the entry's `kid`
equals the requested one and its `use` is `"sig"`. -/
def entryFilter (kid : Str) (v : Value) : Bool :=
  ((v.find "kid".data).bind Value.asString == some kid) &&
  ((v.find "use".data).bind Value.asString == some "sig".data)

/-- A compact JWS assembled from an arbitrary header value the way
`sign_jws` assembles its own: base64 of the serialized header and
payload joined with `.`, then the RSA-SHA256 signature of those bytes
appended as a third part. -/
def mkToken (key : RsaKey) (hdr payload : Value) : Str :=
  (toBase64 (jsonBytes hdr) ++ ('.' :: toBase64 (jsonBytes payload))) ++
    ('.' :: toBase64 (pkeySign key (sha256
      (((toBase64 (jsonBytes hdr) ++ ('.' :: toBase64 (jsonBytes payload))).map
        Char.toNat)))))

/-- `sign_jws` from `crypto.rs`. -/
def sign_jws (key : NamedKey) (payload : Value) : Str :=
  mkToken key.key (signHeader key) payload

/-! Complete path (`src/bridges/mod.rs`). The HTTP layer that owns the
session store is not part of the sources; the pieces `complete_auth`
needs from it are modelled from the spec. -/

/-- The fields of the session record that `complete_auth` reads. -/
structure SessionData where
  email : Str
  email_addr : Str
  redirect_origin : Str
  nonce : Str
  state : Str
deriving DecidableEq, Repr

/-- Modelled from the spec: `SessionStore` is key-value storage of
session records. -/
def SessionStore := List (Str × SessionData)

/-- Modelled from the spec: `take(session_id)` is an atomic
read-and-delete, returning the record (if any) and the remaining
store. -/
def takeSession (store : SessionStore) (sid : Str) :
    Option SessionData × SessionStore :=
  match store.lookup sid with
  | none => (none, store)
  | some r => (some r, store.filter fun p => !(p.1 == sid))

/-- Errors on the broker paths (spec §4.7), as far as the complete path
can produce them. -/
inductive BrokerError where
  | unknownSession
  | storeFailure
deriving DecidableEq, Repr

/-- Modelled from the spec: the response `return_to_relier` builds,
carrying the parameters back to the relying party. -/
structure Response where
  params : List (Str × Str)
deriving DecidableEq, Repr

/-- Modelled from the spec (§4.3, §4.5): mint a JWT over
`(email, aud, nonce)` with the ring's current key. -/
def create_jwt (app : AppConfig) (email _email_addr aud nonce : Str) : Str :=
  match app.keys with
  | [] => []
  | key :: _ =>
    sign_jws key (.objV (objInsert "nonce".data (.strV nonce)
      (objInsert "email".data (.strV email)
        (objInsert "aud".data (.strV aud) []))))

/-- The `Context` fields `complete_auth` reads. -/
structure Context where
  app : AppConfig
  session_id : Str
  session_data : Option SessionData
deriving DecidableEq, Repr

/-- `complete_auth` from `bridges/mod.rs`: `expect` on a missing
session is a panic; `remove_session` is an idempotent delete and its
`?` never fires in the model. -/
def complete_auth (ctx : Context) : ROut BrokerError Response :=
  match ctx.session_data with
  | none => .panicked
  | some data =>
    .ok ⟨[("id_token".data,
        create_jwt ctx.app data.email data.email_addr data.redirect_origin data.nonce),
      ("state".data, data.state)]⟩

/-- Modelled from the spec (§4.5 Complete): `take(session_id)`; if the
record is absent fail `UnknownSession` without retrying, otherwise hand
the record to `complete_auth`. -/
def handle_complete (app : AppConfig) (store : SessionStore) (sid : Str) :
    ROut BrokerError Response :=
  match takeSession store sid with
  | (none, _) => .err .unknownSession
  | (some record, _) => complete_auth ⟨app, sid, some record⟩

/-! Theorems. -/

theorem char_valid_ranges (c : Char) : c.toNat < 55296 ∨ 57344 ≤ c.toNat := by
  rcases c.valid with h | h
  · exact Or.inl h
  · exact Or.inr h.1

theorem char_lt_max (c : Char) : c.toNat < 1114112 := by
  rcases c.valid with h | h
  · have h2 : c.toNat < 55296 := h
    omega
  · exact h.2

theorem toNat_ne_of_ne {c d : Char} (h : c ≠ d) : c.toNat ≠ d.toNat := fun he =>
  h (by rw [← Char.ofNat_toNat c, he, Char.ofNat_toNat])

theorem hexVal_hexDigit (d : Nat) (h : d < 16) : hexVal (hexDigitChar d) = some d := by
  interval_cases d <;> rfl

theorem decodeUnit_escChar (c : Char) (tail : Bytes) :
    ∃ b0 bs0, escChar c = b0 :: bs0 ∧ b0 ≠ 34 ∧
      decodeUnit b0 (bs0 ++ tail) = some (c, tail) := by
  by_cases h1 : c = '"'
  · subst h1
    exact ⟨92, [34], by decide, by decide, rfl⟩
  by_cases h2 : c = '\\'
  · subst h2
    exact ⟨92, [92], by decide, by decide, rfl⟩
  by_cases h3 : c.toNat = 8
  · have hc : c = Char.ofNat 8 := by rw [← h3, Char.ofNat_toNat]
    subst hc
    exact ⟨92, [98], by decide, by decide, rfl⟩
  by_cases h4 : c.toNat = 9
  · have hc : c = Char.ofNat 9 := by rw [← h4, Char.ofNat_toNat]
    subst hc
    exact ⟨92, [116], by decide, by decide, rfl⟩
  by_cases h5 : c.toNat = 10
  · have hc : c = Char.ofNat 10 := by rw [← h5, Char.ofNat_toNat]
    subst hc
    exact ⟨92, [110], by decide, by decide, rfl⟩
  by_cases h6 : c.toNat = 12
  · have hc : c = Char.ofNat 12 := by rw [← h6, Char.ofNat_toNat]
    subst hc
    exact ⟨92, [102], by decide, by decide, rfl⟩
  by_cases h7 : c.toNat = 13
  · have hc : c = Char.ofNat 13 := by rw [← h7, Char.ofNat_toNat]
    subst hc
    exact ⟨92, [114], by decide, by decide, rfl⟩
  have hne34 : c.toNat ≠ 34 := toNat_ne_of_ne h1
  have hne92 : c.toNat ≠ 92 := toNat_ne_of_ne h2
  by_cases h8 : c.toNat < 32
  · refine ⟨92, [117, 48, 48, hexDigitChar (c.toNat / 16), hexDigitChar (c.toNat % 16)],
      ?_, by decide, ?_⟩
    · unfold escChar
      rw [if_neg h1, if_neg h2, if_neg h3, if_neg h4, if_neg h5, if_neg h6, if_neg h7,
        if_pos h8]
    · have hx1 : hexVal (hexDigitChar (c.toNat / 16)) = some (c.toNat / 16) :=
        hexVal_hexDigit _ (by omega)
      have hx2 : hexVal (hexDigitChar (c.toNat % 16)) = some (c.toNat % 16) :=
        hexVal_hexDigit _ (by omega)
      show (match hexVal (hexDigitChar (c.toNat / 16)) with
        | none => none
        | some x3 =>
          match hexVal (hexDigitChar (c.toNat % 16)) with
          | none => none
          | some x4 =>
            if ((0 * 16 + 0) * 16 + x3) * 16 + x4 < 55296 ∨
                57344 ≤ ((0 * 16 + 0) * 16 + x3) * 16 + x4 then
              some (Char.ofNat (((0 * 16 + 0) * 16 + x3) * 16 + x4), tail)
            else none) = some (c, tail)
      rw [hx1, hx2]
      show (if ((0 * 16 + 0) * 16 + c.toNat / 16) * 16 + c.toNat % 16 < 55296 ∨
          57344 ≤ ((0 * 16 + 0) * 16 + c.toNat / 16) * 16 + c.toNat % 16 then
        some (Char.ofNat (((0 * 16 + 0) * 16 + c.toNat / 16) * 16 + c.toNat % 16), tail)
        else none) = some (c, tail)
      have harith : ((0 * 16 + 0) * 16 + c.toNat / 16) * 16 + c.toNat % 16 = c.toNat := by
        omega
      rw [harith, if_pos (Or.inl (by omega : c.toNat < 55296)), Char.ofNat_toNat]
  have he : escChar c = utf8Char c.toNat := by
    unfold escChar
    rw [if_neg h1, if_neg h2, if_neg h3, if_neg h4, if_neg h5, if_neg h6, if_neg h7,
      if_neg h8]
  rw [he]
  unfold utf8Char
  by_cases u1 : c.toNat < 128
  · rw [if_pos u1]
    refine ⟨c.toNat, [], rfl, by simpa using hne34, ?_⟩
    unfold decodeUnit
    rw [if_neg hne92, if_neg (by omega), if_pos u1, Char.ofNat_toNat]
    rfl
  by_cases u2 : c.toNat < 2048
  · rw [if_neg u1, if_pos u2]
    refine ⟨192 + c.toNat / 64, [128 + c.toNat % 64], rfl, by omega, ?_⟩
    unfold decodeUnit
    rw [if_neg (by omega), if_neg (by omega), if_neg (by omega), if_neg (by omega),
      if_pos (by omega)]
    show (if 128 ≤ 128 + c.toNat % 64 ∧ 128 + c.toNat % 64 < 192 then
        (if 128 ≤ (192 + c.toNat / 64 - 192) * 64 + (128 + c.toNat % 64 - 128) then
          some (Char.ofNat ((192 + c.toNat / 64 - 192) * 64 + (128 + c.toNat % 64 - 128)),
            tail)
        else none)
      else none) = some (c, tail)
    rw [if_pos (by omega : 128 ≤ 128 + c.toNat % 64 ∧ 128 + c.toNat % 64 < 192)]
    have harith : (192 + c.toNat / 64 - 192) * 64 + (128 + c.toNat % 64 - 128) =
        c.toNat := by omega
    rw [harith, if_pos (by omega), Char.ofNat_toNat]
  by_cases u3 : c.toNat < 65536
  · rw [if_neg u1, if_neg u2, if_pos u3]
    refine ⟨224 + c.toNat / 4096, [128 + c.toNat / 64 % 64, 128 + c.toNat % 64], rfl,
      by omega, ?_⟩
    unfold decodeUnit
    rw [if_neg (by omega), if_neg (by omega), if_neg (by omega), if_neg (by omega),
      if_neg (by omega), if_pos (by omega)]
    show (if (128 ≤ 128 + c.toNat / 64 % 64 ∧ 128 + c.toNat / 64 % 64 < 192) ∧
          128 ≤ 128 + c.toNat % 64 ∧ 128 + c.toNat % 64 < 192 then
        (if 2048 ≤ (224 + c.toNat / 4096 - 224) * 4096 +
              (128 + c.toNat / 64 % 64 - 128) * 64 + (128 + c.toNat % 64 - 128) ∧
            ((224 + c.toNat / 4096 - 224) * 4096 + (128 + c.toNat / 64 % 64 - 128) * 64 +
                (128 + c.toNat % 64 - 128) < 55296 ∨
              57344 ≤ (224 + c.toNat / 4096 - 224) * 4096 +
                (128 + c.toNat / 64 % 64 - 128) * 64 + (128 + c.toNat % 64 - 128)) then
          some
            (Char.ofNat
              ((224 + c.toNat / 4096 - 224) * 4096 + (128 + c.toNat / 64 % 64 - 128) * 64 +
                (128 + c.toNat % 64 - 128)),
              tail)
        else none)
      else none) = some (c, tail)
    rw [if_pos (by omega :
      (128 ≤ 128 + c.toNat / 64 % 64 ∧ 128 + c.toNat / 64 % 64 < 192) ∧
        128 ≤ 128 + c.toNat % 64 ∧ 128 + c.toNat % 64 < 192)]
    have harith : (224 + c.toNat / 4096 - 224) * 4096 +
        (128 + c.toNat / 64 % 64 - 128) * 64 + (128 + c.toNat % 64 - 128) = c.toNat := by
      omega
    have hr := char_valid_ranges c
    rw [harith, if_pos (by omega), Char.ofNat_toNat]
  · rw [if_neg u1, if_neg u2, if_neg u3]
    refine ⟨240 + c.toNat / 262144,
      [128 + c.toNat / 4096 % 64, 128 + c.toNat / 64 % 64, 128 + c.toNat % 64], rfl,
      by omega, ?_⟩
    have hm := char_lt_max c
    unfold decodeUnit
    rw [if_neg (by omega), if_neg (by omega), if_neg (by omega), if_neg (by omega),
      if_neg (by omega), if_neg (by omega), if_pos (by omega)]
    show (if (128 ≤ 128 + c.toNat / 4096 % 64 ∧ 128 + c.toNat / 4096 % 64 < 192) ∧
          (128 ≤ 128 + c.toNat / 64 % 64 ∧ 128 + c.toNat / 64 % 64 < 192) ∧
            128 ≤ 128 + c.toNat % 64 ∧ 128 + c.toNat % 64 < 192 then
        (if 65536 ≤ (240 + c.toNat / 262144 - 240) * 262144 +
              (128 + c.toNat / 4096 % 64 - 128) * 4096 +
                (128 + c.toNat / 64 % 64 - 128) * 64 + (128 + c.toNat % 64 - 128) ∧
            (240 + c.toNat / 262144 - 240) * 262144 +
              (128 + c.toNat / 4096 % 64 - 128) * 4096 +
                (128 + c.toNat / 64 % 64 - 128) * 64 + (128 + c.toNat % 64 - 128) <
              1114112 then
          some
            (Char.ofNat
              ((240 + c.toNat / 262144 - 240) * 262144 +
                (128 + c.toNat / 4096 % 64 - 128) * 4096 +
                  (128 + c.toNat / 64 % 64 - 128) * 64 + (128 + c.toNat % 64 - 128)),
              tail)
        else none)
      else none) = some (c, tail)
    rw [if_pos (by omega :
      (128 ≤ 128 + c.toNat / 4096 % 64 ∧ 128 + c.toNat / 4096 % 64 < 192) ∧
        (128 ≤ 128 + c.toNat / 64 % 64 ∧ 128 + c.toNat / 64 % 64 < 192) ∧
          128 ≤ 128 + c.toNat % 64 ∧ 128 + c.toNat % 64 < 192)]
    have harith : (240 + c.toNat / 262144 - 240) * 262144 +
        (128 + c.toNat / 4096 % 64 - 128) * 4096 +
          (128 + c.toNat / 64 % 64 - 128) * 64 + (128 + c.toNat % 64 - 128) = c.toNat := by
      omega
    rw [harith, if_pos (by omega), Char.ofNat_toNat]

theorem parseStr_print (s : Str) : ∀ (rest : Bytes) (fuel : Nat), s.length < fuel →
    parseStr fuel ((s.map escChar).flatten ++ (34 :: rest)) = some (s, rest) := by
  induction s with
  | nil =>
    intro rest fuel hf
    obtain ⟨f, rfl⟩ : ∃ f, fuel = f + 1 := ⟨fuel - 1, by omega⟩
    show parseStr (f + 1) (34 :: rest) = some ([], rest)
    rw [parseStr]
    rfl
  | cons c s ih =>
    intro rest fuel hf
    obtain ⟨f, rfl⟩ : ∃ f, fuel = f + 1 := ⟨fuel - 1, by omega⟩
    obtain ⟨b0, bs0, he, hne, hd⟩ :=
      decodeUnit_escChar c ((s.map escChar).flatten ++ (34 :: rest))
    rw [List.map_cons, List.flatten_cons, List.append_assoc, he]
    show parseStr (f + 1) (b0 :: (bs0 ++ ((s.map escChar).flatten ++ (34 :: rest)))) = _
    rw [parseStr, if_neg hne, hd]
    have hlt : s.length < f := by
      simp only [List.length_cons] at hf
      omega
    show mapCons c (parseStr f ((s.map escChar).flatten ++ (34 :: rest))) = _
    rw [ih rest f hlt]
    rfl

theorem natDigits_digits (n : Nat) : ∀ b ∈ natDigits n, 48 ≤ b ∧ b ≤ 57 := by
  induction n using Nat.strong_induction_on with
  | _ n ih =>
    intro b hb
    rw [natDigits] at hb
    by_cases h : n < 10
    · rw [dif_pos h] at hb
      have : b = 48 + n := by simpa using hb
      omega
    · rw [dif_neg h] at hb
      rcases List.mem_append.mp hb with hb | hb
      · exact ih (n / 10) (Nat.div_lt_self (by omega) (by omega)) b hb
      · have : b = 48 + n % 10 := by simpa using hb
        omega

theorem natDigits_ne_nil (n : Nat) : natDigits n ≠ [] := by
  rw [natDigits]
  by_cases h : n < 10
  · rw [dif_pos h]
    simp
  · rw [dif_neg h]
    simp

theorem digitsVal_append (xs : Bytes) (b : Nat) :
    digitsVal (xs ++ [b]) = digitsVal xs * 10 + (b - 48) := by
  unfold digitsVal
  rw [List.foldl_append]
  rfl

theorem digitsVal_natDigits (n : Nat) : digitsVal (natDigits n) = n := by
  induction n using Nat.strong_induction_on with
  | _ n ih =>
    rw [natDigits]
    by_cases h : n < 10
    · rw [dif_pos h]
      show digitsVal [48 + n] = n
      unfold digitsVal
      simp
    · rw [dif_neg h, digitsVal_append,
        ih (n / 10) (Nat.div_lt_self (by omega) (by omega))]
      omega

theorem takeWhile_digits (xs rest : Bytes) (hxs : ∀ x ∈ xs, isDigit x = true)
    (hrest : noLeadDigit rest = true) :
    (xs ++ rest).takeWhile isDigit = xs ∧ (xs ++ rest).dropWhile isDigit = rest := by
  induction xs with
  | nil =>
    cases rest with
    | nil => simp
    | cons b r =>
      have hb : isDigit b = false := by
        have := hrest
        simp only [noLeadDigit, Bool.not_eq_true'] at this
        exact this
      simp [List.takeWhile_cons, List.dropWhile_cons, hb]
  | cons x xs ih =>
    have hx : isDigit x = true := hxs x (by simp)
    have ih' := ih fun y hy => hxs y (by simp [hy])
    simp [List.takeWhile_cons, List.dropWhile_cons, hx, ih'.1, ih'.2]

theorem isDigit_of (b : Nat) (h : 48 ≤ b ∧ b ≤ 57) : isDigit b = true := by
  simp only [isDigit, decide_eq_true_eq]
  exact h

theorem parseNum_print (i : Int) (rest : Bytes) (hrest : noLeadDigit rest = true) :
    parseNum (intJsonBytes i ++ rest) = some (.intV i, rest) := by
  cases i with
  | ofNat n =>
    obtain ⟨d, ds, hd⟩ : ∃ d ds, natDigits n = d :: ds := by
      cases h : natDigits n with
      | nil => exact absurd h (natDigits_ne_nil n)
      | cons d ds => exact ⟨d, ds, rfl⟩
    have hdig := natDigits_digits n
    have h45 : d ≠ 45 := by
      have := hdig d (by rw [hd]; simp)
      omega
    show parseNum (natDigits n ++ rest) = some (.intV (Int.ofNat n), rest)
    rw [hd]
    show parseNum (d :: (ds ++ rest)) = some (.intV (Int.ofNat n), rest)
    rw [parseNum, if_neg h45]
    have e : d :: (ds ++ rest) = (d :: ds) ++ rest := rfl
    have ht := takeWhile_digits (d :: ds) rest
      (by rw [← hd]; exact fun x hx => isDigit_of x (hdig x hx)) hrest
    rw [e, ht.1, ht.2, if_neg (by simp)]
    rw [← hd, digitsVal_natDigits]
    rfl
  | negSucc m =>
    show parseNum (45 :: (natDigits (m + 1) ++ rest)) = some (.intV (Int.negSucc m), rest)
    rw [parseNum, if_pos rfl]
    have ht := takeWhile_digits (natDigits (m + 1)) rest
      (fun x hx => isDigit_of x (natDigits_digits _ x hx)) hrest
    rw [ht.1, ht.2, if_neg (by simp [natDigits_ne_nil]), digitsVal_natDigits]
    norm_num [Int.negSucc_eq]

theorem strLt_asymm (a : Str) : ∀ b, strLt a b = true → strLt b a = false := by
  induction a with
  | nil =>
    intro b h
    cases b with
    | nil => simp [strLt] at h
    | cons d bs => simp [strLt]
  | cons c as ih =>
    intro b h
    cases b with
    | nil => simp [strLt] at h
    | cons d bs =>
      rw [strLt] at h ⊢
      by_cases h1 : c.toNat < d.toNat
      · rw [if_neg (by omega), if_pos h1]
      · rw [if_neg h1] at h
        by_cases h2 : d.toNat < c.toNat
        · rw [if_pos h2] at h
          exact absurd h (by simp)
        · rw [if_neg h2] at h
          rw [if_neg h2, if_neg h1, ih bs h]

theorem objInsert_append (k : Str) (v : Value) :
    ∀ acc, (∀ p ∈ acc, strLt p.1 k = true) → objInsert k v acc = acc ++ [(k, v)] := by
  intro acc
  induction acc with
  | nil => intro _; rfl
  | cons p ps ih =>
    intro h
    obtain ⟨k2, v2⟩ := p
    have hlt : strLt k2 k = true := h (k2, v2) (by simp)
    have hnlt : strLt k k2 = false := strLt_asymm k2 k hlt
    rw [objInsert, if_neg (by simp [hnlt]), if_pos hlt, ih fun q hq => h q (by simp [hq])]
    rfl

theorem allLt_of_mem (k : Str) (ks : List Str) (h : allLt k ks = true) :
    ∀ k2 ∈ ks, strLt k k2 = true := by
  induction ks with
  | nil => intro k2 hk2; simp at hk2
  | cons k0 ks ih =>
    intro k2 hk2
    rw [allLt, Bool.and_eq_true] at h
    rcases List.mem_cons.mp hk2 with rfl | hk2
    · exact h.1
    · exact ih h.2 k2 hk2

theorem keysSorted_middle (k : Str) (ks2 : List Str) :
    ∀ ks1, keysSorted (ks1 ++ k :: ks2) = true → ∀ k2 ∈ ks1, strLt k2 k = true := by
  intro ks1
  induction ks1 with
  | nil => intro _ k2 hk2; simp at hk2
  | cons k0 ks1 ih =>
    intro h k2 hk2
    rw [List.cons_append, keysSorted, Bool.and_eq_true] at h
    rcases List.mem_cons.mp hk2 with rfl | hk2
    · exact allLt_of_mem k2 _ h.1 k (by simp)
    · exact ih h.2 k2 hk2

theorem jsonBytes_shape (v : Value) : ∃ b tail, jsonBytes v = b :: tail ∧
    ¬(b = 32 ∨ b = 9 ∨ b = 10 ∨ b = 13) ∧ b ≠ 93 ∧ b ≠ 125 ∧ b ≠ 44 ∧ b ≠ 58 := by
  cases v with
  | nullV => exact ⟨110, _, rfl, by omega, by omega, by omega, by omega, by omega⟩
  | boolV b =>
    cases b with
    | true => exact ⟨116, _, rfl, by omega, by omega, by omega, by omega, by omega⟩
    | false => exact ⟨102, _, rfl, by omega, by omega, by omega, by omega, by omega⟩
  | intV i =>
    cases i with
    | ofNat n =>
      obtain ⟨d, ds, hd⟩ : ∃ d ds, natDigits n = d :: ds := by
        cases h : natDigits n with
        | nil => exact absurd h (natDigits_ne_nil n)
        | cons d ds => exact ⟨d, ds, rfl⟩
      have hdig := natDigits_digits n d (by rw [hd]; simp)
      refine ⟨d, ds, ?_, by omega, by omega, by omega, by omega, by omega⟩
      show natDigits n = d :: ds
      exact hd
    | negSucc m =>
      exact ⟨45, _, rfl, by omega, by omega, by omega, by omega, by omega⟩
  | strV s => exact ⟨34, _, rfl, by omega, by omega, by omega, by omega, by omega⟩
  | arrV vs => exact ⟨91, _, rfl, by omega, by omega, by omega, by omega, by omega⟩
  | objV kvs => exact ⟨123, _, rfl, by omega, by omega, by omega, by omega, by omega⟩

theorem skipWs_cons (b : Nat) (rest : Bytes) (h : ¬(b = 32 ∨ b = 9 ∨ b = 10 ∨ b = 13)) :
    skipWs (b :: rest) = b :: rest := by
  rw [skipWs, if_neg h]

theorem natToBytes_lt (n : Nat) : ∀ b ∈ natToBytes n, b < 256 := by
  induction n using Nat.strong_induction_on with
  | _ n ih =>
    intro b hb
    rw [natToBytes] at hb
    by_cases h : n = 0
    · rw [dif_pos h] at hb
      simp at hb
    · rw [dif_neg h] at hb
      rcases List.mem_append.mp hb with hb | hb
      · exact ih (n / 256) (Nat.div_lt_self (Nat.pos_of_ne_zero h) (by omega)) b hb
      · have : b = n % 256 := by simpa using hb
        omega

theorem bytesToNat_append (xs : Bytes) (b : Nat) :
    bytesToNat (xs ++ [b]) = bytesToNat xs * 256 + b := by
  unfold bytesToNat
  rw [List.foldl_append]
  rfl

theorem bytesToNat_natToBytes (n : Nat) : bytesToNat (natToBytes n) = n := by
  induction n using Nat.strong_induction_on with
  | _ n ih =>
    rw [natToBytes]
    by_cases h : n = 0
    · simp [h, bytesToNat]
    · rw [dif_neg h, bytesToNat_append,
        ih (n / 256) (Nat.div_lt_self (Nat.pos_of_ne_zero h) (by omega))]
      omega

theorem b64Char_spec : ∀ n, n < 64 →
    b64Val (b64Char n) = some n ∧ b64Char n ≠ '\r' ∧ b64Char n ≠ '\n' ∧
    b64Char n ≠ '=' ∧ b64Char n ≠ '.' := by decide

theorem b64Sextets_lt (bs : Bytes) (h : ∀ b ∈ bs, b < 256) :
    ∀ v ∈ b64Sextets bs, v < 64 := by
  induction bs using b64Sextets.induct with
  | case1 b1 b2 b3 rest ih =>
    have h1 : b1 < 256 := h b1 (by simp)
    have h2 : b2 < 256 := h b2 (by simp)
    have h3 : b3 < 256 := h b3 (by simp)
    intro v hv
    rw [b64Sextets] at hv
    simp only [List.mem_cons] at hv
    rcases hv with rfl | rfl | rfl | rfl | hv
    · omega
    · omega
    · omega
    · omega
    · exact ih (fun b hb => h b (by simp [hb])) v hv
  | case2 b1 b2 =>
    have h1 : b1 < 256 := h b1 (by simp)
    have h2 : b2 < 256 := h b2 (by simp)
    intro v hv
    rw [b64Sextets] at hv
    simp only [List.mem_cons, List.not_mem_nil, or_false] at hv
    rcases hv with rfl | rfl | rfl <;> omega
  | case3 b1 =>
    have h1 : b1 < 256 := h b1 (by simp)
    intro v hv
    rw [b64Sextets] at hv
    simp only [List.mem_cons, List.not_mem_nil, or_false] at hv
    rcases hv with rfl | rfl <;> omega
  | case4 => simp [b64Sextets]

theorem b64Decode_b64Sextets (bs : Bytes) (h : ∀ b ∈ bs, b < 256) :
    b64Decode (b64Sextets bs) = some bs := by
  induction bs using b64Sextets.induct with
  | case1 b1 b2 b3 rest ih =>
    have h1 : b1 < 256 := h b1 (by simp)
    have h2 : b2 < 256 := h b2 (by simp)
    have h3 : b3 < 256 := h b3 (by simp)
    rw [b64Sextets, b64Decode, ih (fun b hb => h b (by simp [hb]))]
    simp only [Option.map_some']
    congr 1
    have e1 : (b1 / 4) * 4 + ((b1 % 4) * 16 + b2 / 16) / 16 = b1 := by omega
    have e2 : (((b1 % 4) * 16 + b2 / 16) % 16) * 16 + ((b2 % 16) * 4 + b3 / 64) / 4 = b2 := by
      omega
    have e3 : (((b2 % 16) * 4 + b3 / 64) % 4) * 64 + b3 % 64 = b3 := by omega
    rw [e1, e2, e3]
  | case2 b1 b2 =>
    have h1 : b1 < 256 := h b1 (by simp)
    have h2 : b2 < 256 := h b2 (by simp)
    rw [b64Sextets, b64Decode]
    congr 1
    have e1 : (b1 / 4) * 4 + ((b1 % 4) * 16 + b2 / 16) / 16 = b1 := by omega
    have e2 : (((b1 % 4) * 16 + b2 / 16) % 16) * 16 + ((b2 % 16) * 4) / 4 = b2 := by omega
    rw [e1, e2]
  | case3 b1 =>
    have h1 : b1 < 256 := h b1 (by simp)
    rw [b64Sextets, b64Decode]
    congr 1
    have e1 : (b1 / 4) * 4 + ((b1 % 4) * 16) / 16 = b1 := by omega
    rw [e1]
  | case4 => rfl

theorem b64Vals_map_b64Char (vs : List Nat) (h : ∀ v ∈ vs, v < 64) :
    b64Vals (vs.map b64Char) = some vs := by
  induction vs with
  | nil => rfl
  | cons v vs ih =>
    rw [List.map_cons, b64Vals, (b64Char_spec v (h v (by simp))).1,
      ih (fun w hw => h w (by simp [hw]))]

theorem fromBase64_toBase64 (bs : Bytes) (h : ∀ b ∈ bs, b < 256) :
    fromBase64 (toBase64 bs) = some bs := by
  have hv := b64Sextets_lt bs h
  have hchars : ∀ c ∈ toBase64 bs,
      c ≠ '\r' ∧ c ≠ '\n' ∧ c ≠ '=' := by
    intro c hc
    unfold toBase64 at hc
    rcases List.mem_map.mp hc with ⟨v, hvmem, rfl⟩
    obtain ⟨-, h2, h3, h4, -⟩ := b64Char_spec v (hv v hvmem)
    exact ⟨h2, h3, h4⟩
  unfold fromBase64
  have hfilter : (toBase64 bs).filter (fun c => !(c == '\r' || c == '\n')) = toBase64 bs := by
    apply List.filter_eq_self.mpr
    intro c hc
    obtain ⟨h2, h3, -⟩ := hchars c hc
    simp [h2, h3]
  rw [hfilter]
  have hstrip : stripPad (toBase64 bs) = toBase64 bs := by
    unfold stripPad
    have hdrop : (toBase64 bs).reverse.dropWhile (fun c => c == '=') =
        (toBase64 bs).reverse := by
      cases hrev : (toBase64 bs).reverse with
      | nil => rfl
      | cons c rest =>
        have hcmem : c ∈ toBase64 bs := by
          rw [← List.mem_reverse, hrev]
          simp
        obtain ⟨-, -, h4⟩ := hchars c hcmem
        rw [List.dropWhile_cons, if_neg (by simp [h4])]
    rw [hdrop, List.reverse_reverse]
  rw [hstrip]
  have hmem : ¬ ('=' ∈ toBase64 bs) := fun hc => (hchars '=' hc).2.2 rfl
  rw [Nat.sub_self]
  rw [if_neg (by simp [hmem])]
  unfold toBase64
  rw [b64Vals_map_b64Char _ hv]
  exact b64Decode_b64Sextets bs h

theorem firstToken_not_empty (s t : Str) (h : firstToken s = some t) :
    t.isEmpty = false := by
  simp only [firstToken] at h
  split at h
  · exact absurd h (by simp)
  · rename_i he
    injection h with h
    subst h
    simpa using he

theorem readerOutputs_cons_ok (data : Str) (rest : List (Except IoErr Str)) :
    readerOutputs (.ok data :: rest) =
      (match firstToken data with
       | some tok =>
         if !tok.isEmpty && !"//".data.isPrefixOf tok && !"#".data.isPrefixOf tok then
           .ok tok :: readerOutputs rest
         else readerOutputs rest
       | none => readerOutputs rest) := rfl

/-- Claim C9: the file reader yields, in order, exactly the first
whitespace-delimited token of each line, skipping lines without a token
and lines whose first token begins `//` or `#`; a failed line read yields
an individual `Err` item and iteration continues with the following
lines. -/
theorem claim9_reader_semantics (lines : List (Except IoErr Str)) :
    readerOutputs lines = readerSpec lines := by
  induction lines with
  | nil => rfl
  | cons l rest ih =>
    cases l with
    | error e =>
      simp [readerOutputs, readerSpec, List.filterMap_cons, readerKeep, ih]
    | ok data =>
      cases hf : firstToken data with
      | none =>
        simp only [readerOutputs_cons_ok, hf]
        simp only [readerSpec, List.filterMap_cons, readerKeep, hf, Option.none_bind]
        exact ih
      | some tok =>
        have hne := firstToken_not_empty data tok hf
        by_cases h1 : "//".data <+: tok <;>
          by_cases h2 : "#".data <+: tok <;>
          simp [readerOutputs_cons_ok, readerSpec, List.filterMap_cons, readerKeep,
            hf, hne, h1, h2, ih]

theorem splitSep_ne_nil (sep : Char) (s : Str) : splitSep sep s ≠ [] := by
  induction s with
  | nil => simp [splitSep]
  | cons c rest ih =>
    unfold splitSep
    by_cases h : c = sep
    · simp [h]
    · simp only [h, if_false]
      cases splitSep sep rest <;> simp

theorem getLast?_ne_none {α : Type} (l : List α) (h : l ≠ []) : l.getLast? ≠ none := by
  induction l with
  | nil => exact absurd rfl h
  | cons a t ih =>
    cases t with
    | nil => simp [List.getLast?]
    | cons b t' => rw [List.getLast?_cons_cons]; exact ih (by simp)

theorem stripTrailingDot_append_dot (s : Str) : stripTrailingDot (s ++ ['.']) = s := by
  unfold stripTrailingDot
  simp [List.getLast?_concat]

theorem stripTrailingDot_of_ne (s : Str) (h : s.getLast? ≠ some '.') :
    stripTrailingDot s = s := by
  unfold stripTrailingDot
  simp [h]

/-- Claim C5 (amended): if the punycode normalization of a domain, after
stripping a single trailing dot, is in `allowed_domains`, then `validate`
returns `Ok`, regardless of the rest of the configuration. -/
theorem claim5_allowed_overrides (toAscii : Str → Option Str) (v : DomainValidator)
    (d s : Str) (h1 : toAscii d = some s)
    (h2 : v.allowed_domains.contains (stripTrailingDot s) = true) :
    validate toAscii v d = .ok () := by
  unfold validate
  rw [h1]
  have h2' : stripTrailingDot s ∈ v.allowed_domains := by simpa using h2
  show validateStripped v (stripTrailingDot s) = .ok ()
  unfold validateStripped
  simp [h2']

/-- Claim C5, witness for the amended claim at a concrete input. -/
theorem claim5_witness :
    idnaToAscii "foo.example".data = some "foo.example".data ∧
    validate idnaToAscii v5w "foo.example".data = .ok () :=
  ⟨by decide,
   claim5_allowed_overrides idnaToAscii v5w "foo.example".data "foo.example".data
     (by decide) (by decide)⟩

/-- Claim C5, counterexample to the claim as stated: the string
`example.com.` (with its trailing dot) is placed in `allowed_domains` via
`add_allowed_domain`, the punycode normalization of the input
`example.com.` is exactly that allowed string, yet `validate` returns
`Err(Blocked)` because the allow-list is consulted only after the trailing
dot has been stripped. -/
theorem claim5_counterexample :
    add_allowed_domain idnaToAscii
        { allowed_domains := [], allowed_domains_only := true,
          blocked_domains := [], valid_tlds := [], valid_suffixes := [] }
        "example.com.".data = some v5c ∧
    idnaToAscii "example.com.".data = some "example.com.".data ∧
    v5c.allowed_domains.contains "example.com.".data = true ∧
    validate idnaToAscii v5c "example.com.".data = .err .blocked := by
  refine ⟨by decide, by decide, by decide, by decide⟩

theorem validateSuffixLoop_nil (domain : List Str) (matched : Option SuffixRule) :
    validateSuffixLoop domain [] matched =
      match matched with
      | some rule => decide (rule.labels.length < domain.length)
      | none => decide (1 < domain.length) := rfl

theorem validateSuffixLoop_cons (domain : List Str) (rule : SuffixRule)
    (rest : List SuffixRule) (matched : Option SuffixRule) :
    validateSuffixLoop domain (rule :: rest) matched =
      if ruleMatches rule domain then
        if rule.exception then true
        else
          validateSuffixLoop domain rest
            (match matched with
             | some other =>
               if rule.labels.length < other.labels.length then some other else some rule
             | none => some rule)
      else validateSuffixLoop domain rest matched := rfl

theorem maxNat?_cons (n : Nat) (ns : List Nat) :
    maxNat? (n :: ns) = mergeMax (some n) (maxNat? ns) := by
  cases h : maxNat? ns <;> simp [maxNat?, h, mergeMax]

theorem mergeMax_assoc (a b x : Option Nat) :
    mergeMax (mergeMax a b) x = mergeMax a (mergeMax b x) := by
  cases a <;> cases b <;> cases x <;> simp [mergeMax, Nat.max_assoc]

theorem acc_update_len (acc : Option SuffixRule) (r : SuffixRule) :
    ((match acc with
      | some other =>
        if r.labels.length < other.labels.length then some other else some r
      | none => some r : Option SuffixRule)).map (fun q => q.labels.length)
    = mergeMax (acc.map fun q => q.labels.length) (some r.labels.length) := by
  cases acc with
  | none => simp [mergeMax]
  | some other =>
    by_cases hlt : r.labels.length < other.labels.length
    · simp [hlt, mergeMax, Nat.max_eq_left (Nat.le_of_lt hlt)]
    · simp [hlt, mergeMax, Nat.max_eq_right (Nat.le_of_not_lt hlt)]

theorem validateSuffixLoop_spec (domain : List Str) :
    ∀ (rules : List SuffixRule) (acc : Option SuffixRule),
    validateSuffixLoop domain rules acc =
      (if rules.any fun r => r.exception && ruleMatches r domain then true
       else
         match mergeMax (acc.map fun r => r.labels.length)
             (maxNat? ((rules.filter fun r => !r.exception && ruleMatches r domain).map
               fun r => r.labels.length)) with
         | some n => decide (n < domain.length)
         | none => decide (1 < domain.length)) := by
  intro rules
  induction rules with
  | nil =>
    intro acc
    cases acc <;> simp [validateSuffixLoop_nil, maxNat?, mergeMax]
  | cons r rs ih =>
    intro acc
    rw [validateSuffixLoop_cons]
    by_cases hm : ruleMatches r domain
    · by_cases he : r.exception = true
      · simp [hm, he]
      · have he' : r.exception = false := by simpa using he
        simp only [hm, if_true, he', if_false]
        rw [ih, acc_update_len, mergeMax_assoc]
        simp only [List.any_cons, he', Bool.false_and, Bool.false_or, List.filter_cons,
          hm, Bool.not_false, Bool.true_and, Bool.and_true, if_true, List.map_cons,
          maxNat?_cons]
        simp
    · rw [if_neg hm, ih]
      have hm' : ruleMatches r domain = false := by simpa using hm
      simp only [List.any_cons, hm', Bool.and_false, Bool.false_or,
        List.filter_cons, Bool.and_false, if_false]
      simp

/-- Claim C6: `validate_suffix` implements the public-suffix semantics as
specified: a matching exception rule passes the domain; otherwise, with
`n` the largest label count of any matching non-exception rule, the domain
passes iff it has strictly more than `n` labels; with no matching rule the
domain passes iff it has at least 2 labels. -/
theorem claim6_suffix_semantics (v : DomainValidator) (domain : List Str)
    (h : domain ≠ []) :
    validate_suffix v domain = suffixCheckSpec v.valid_suffixes domain := by
  unfold validate_suffix suffixCheckSpec
  rw [validateSuffixLoop_spec]
  rfl

/-- Claim C6, witness at a concrete input: the exception rule `!www.ck`
lets `www.ck` pass against the wildcard rule `*.ck`. -/
theorem claim6_witness :
    (["www".data, "ck".data] : List Str) ≠ [] ∧
    validate_suffix v6w ["www".data, "ck".data] =
      suffixCheckSpec v6w.valid_suffixes ["www".data, "ck".data] :=
  ⟨by decide, claim6_suffix_semantics v6w _ (by decide)⟩

/-- Claim C7 (amended): for every domain whose punycode normalization does
not itself end in a dot, `validate` returns the same result for the domain
and for the domain with a trailing dot appended. The hypothesis `htrail`
records the behaviour of the external `idna::domain_to_ascii` on the
appended dot: normalization acts per label, so a trailing empty label is
preserved. -/
theorem claim7_trailing_dot (toAscii : Str → Option Str) (v : DomainValidator) (d : Str)
    (htrail : toAscii (d ++ ['.']) = (toAscii d).map (· ++ ['.']))
    (hnodot : (toAscii d).map List.getLast? ≠ some (some '.')) :
    validate toAscii v (d ++ ['.']) = validate toAscii v d := by
  cases h : toAscii d with
  | none =>
    unfold validate
    rw [htrail, h]
    rfl
  | some s =>
    have hs : s.getLast? ≠ some '.' := by
      rw [h] at hnodot
      simpa using hnodot
    unfold validate
    rw [htrail, h]
    have hmap : Option.map (fun x => x ++ ['.']) (some s) = some (s ++ ['.']) := rfl
    rw [hmap]
    show validateStripped v (stripTrailingDot (s ++ ['.'])) =
      validateStripped v (stripTrailingDot s)
    rw [stripTrailingDot_append_dot, stripTrailingDot_of_ne s hs]

/-- Claim C7, witness for the amended claim at a concrete input. -/
theorem claim7_witness :
    idnaToAscii ("example.com".data ++ ['.']) =
      (idnaToAscii "example.com".data).map (· ++ ['.']) ∧
    validate idnaToAscii v7c ("example.com".data ++ ['.']) =
      validate idnaToAscii v7c "example.com".data :=
  ⟨by decide, claim7_trailing_dot idnaToAscii v7c "example.com".data
     (by decide) (by decide)⟩

/-- Claim C7, counterexample to the claim as stated: for the input
`example.com.` (already carrying a trailing dot) the validator returns
`Ok`, but appending one more dot yields `Err(ContainsEmptyLabels)`,
because only a single trailing dot is stripped. -/
theorem claim7_counterexample :
    validate idnaToAscii v7c "example.com.".data = .ok () ∧
    validate idnaToAscii v7c ("example.com.".data ++ ['.']) = .err .containsEmptyLabels := by
  refine ⟨by decide, by decide⟩

theorem validateLabels_ne_panicked (v : DomainValidator) (labels : List Str)
    (h : labels ≠ []) : validateLabels v labels ≠ .panicked := by
  unfold validateLabels
  cases hl : labels.getLast? with
  | none => exact absurd hl (getLast?_ne_none _ h)
  | some tld =>
    show (if labels.any List.isEmpty then ROut.err DomainValidationError.containsEmptyLabels
      else if !v.valid_tlds.contains tld then ROut.err DomainValidationError.invalidTld
      else if !validate_suffix v labels then ROut.err DomainValidationError.invalidSuffix
      else ROut.ok ()) ≠ ROut.panicked
    split_ifs <;> simp

/-- Claim C10: `validate` is total: it never panics. In particular the
`unwrap` on `domain.last()` is unreachable, because splitting any string
on dots yields a non-empty list of labels. -/
theorem claim10_validate_total (toAscii : Str → Option Str) (v : DomainValidator)
    (d : Str) : validate toAscii v d ≠ .panicked := by
  unfold validate
  cases toAscii d with
  | none => simp
  | some s =>
    show validateStripped v (stripTrailingDot s) ≠ .panicked
    unfold validateStripped
    split_ifs with h1 h2
    · simp
    · simp
    · exact validateLabels_ne_panicked v (splitSep '.' (stripTrailingDot s))
        (splitSep_ne_nil '.' _)


theorem fuelBound :
    (∀ v, vFuel v ≤ (jsonBytes v).length) ∧
    (∀ kvs : List (Str × Value), kvFuel kvs ≤ (jsonObjBytes kvs).length + 1) ∧
    (∀ vs : List Value, lFuel vs ≤ (jsonArrBytes vs).length + 1) := by
  apply jsonBytes.mutual_induct
  case case1 => simp [vFuel, jsonBytes]
  case case2 => simp [vFuel, jsonBytes]
  case case3 => simp [vFuel, jsonBytes]
  case case4 =>
    intro i
    cases i with
    | ofNat n =>
      have : natDigits n ≠ [] := natDigits_ne_nil n
      have hp : 0 < (natDigits n).length := List.length_pos.mpr this
      show vFuel (Value.intV (Int.ofNat n)) ≤ (natDigits n).length
      simp only [vFuel]
      omega
    | negSucc m =>
      show vFuel (Value.intV (Int.negSucc m)) ≤ (45 :: natDigits (m + 1)).length
      simp [vFuel]
  case case5 =>
    intro s
    show vFuel (Value.strV s) ≤ (strJsonBytes s).length
    simp [vFuel, strJsonBytes]
  case case6 =>
    intro vs ih
    cases vs with
    | nil => simp [vFuel, jsonBytes, jsonArrBytes, lFuel]
    | cons v vs2 =>
      simp only [vFuel, jsonBytes, List.length_cons, List.length_append] at ih ⊢
      omega
  case case7 =>
    intro kvs ih
    cases kvs with
    | nil => simp [vFuel, jsonBytes, jsonObjBytes, kvFuel]
    | cons kv kvs2 =>
      simp only [vFuel, jsonBytes, List.length_cons, List.length_append] at ih ⊢
      omega
  case case8 => simp [lFuel, jsonArrBytes]
  case case9 =>
    intro v ih
    simp only [lFuel, jsonArrBytes, List.length_cons] at ih ⊢
    omega
  case case10 =>
    intro v vs hne ihv ihvs
    cases vs with
    | nil => exact (hne rfl).elim
    | cons v2 vs2 =>
      simp only [lFuel, jsonArrBytes, List.length_cons, List.length_append] at ihv ihvs ⊢
      omega
  case case11 => simp [kvFuel, jsonObjBytes]
  case case12 =>
    intro k v ih
    simp only [kvFuel, jsonObjBytes, List.length_cons, List.length_append] at ih ⊢
    omega
  case case13 =>
    intro k v kvs hne ihv ihkvs
    cases kvs with
    | nil => exact (hne rfl).elim
    | cons kv2 kvs2 =>
      simp only [kvFuel, jsonObjBytes, List.length_cons, List.length_append] at ihv ihkvs ⊢
      omega

theorem utf8Char_len_pos (n : Nat) : 1 ≤ (utf8Char n).length := by
  rw [utf8Char]
  split_ifs <;> simp

theorem escChar_len_pos (c : Char) : 1 ≤ (escChar c).length := by
  rw [escChar]
  split_ifs <;> first | simp | exact utf8Char_len_pos c.toNat

theorem flatten_escChar_len (s : Str) : s.length ≤ ((s.map escChar).flatten).length := by
  induction s with
  | nil => simp
  | cons c s ih =>
    rw [List.map_cons, List.flatten_cons, List.length_append, List.length_cons]
    have := escChar_len_pos c
    omega

theorem vFuel_pos (v : Value) : 1 ≤ vFuel v := by
  cases v with
  | arrV vs => cases vs <;> simp [vFuel]
  | objV kvs => cases kvs <;> simp [vFuel]
  | nullV => simp [vFuel]
  | boolV b => simp [vFuel]
  | intV i => simp [vFuel]
  | strV s => simp [vFuel]

theorem parseVal_cons (fuel : Nat) (bs : Bytes) (b : Nat) (rest : Bytes)
    (hskip : skipWs bs = b :: rest) :
    parseVal (fuel + 1) bs =
      (if b = 110 then litNull rest
      else if b = 116 then litTrue rest
      else if b = 102 then litFalse rest
      else if b = 34 then
        match parseStr (rest.length + 1) rest with
        | some (s, r) => some (.strV s, r)
        | none => none
      else if b = 91 then
        match skipWs rest with
        | b2 :: r => if b2 = 93 then some (.arrV [], r) else parseArrItems fuel rest
        | [] => parseArrItems fuel rest
      else if b = 123 then
        match skipWs rest with
        | b2 :: r => if b2 = 125 then some (.objV [], r) else parseObjItems fuel rest []
        | [] => parseObjItems fuel rest []
      else if b = 45 ∨ isDigit b then parseNum (b :: rest)
      else none) := by
  rw [parseVal]
  split
  · rename_i heq
    rw [hskip] at heq
    simp at heq
  · rename_i b2 rest2 heq
    rw [hskip] at heq
    injection heq with h1 h2
    subst h1
    subst h2
    rfl

theorem parseObjItems_head (fuel : Nat) (bs : Bytes) (acc : List (Str × Value))
    (rest1 : Bytes) (hskip : skipWs bs = 34 :: rest1) :
    parseObjItems (fuel + 1) bs acc =
      (match parseStr (rest1.length + 1) rest1 with
       | none => none
       | some (k, r) =>
         match skipWs r with
         | 58 :: r2 =>
           match parseVal fuel r2 with
           | none => none
           | some (v, r3) =>
             match skipWs r3 with
             | 44 :: r4 => parseObjItems fuel r4 (objInsert k v acc)
             | 125 :: r4 => some (.objV (objInsert k v acc), r4)
             | _ => none
         | _ => none) := by
  rw [parseObjItems, hskip]

theorem acc_lt_key (acc : List (Str × Value)) (k : Str) (v : Value)
    (kvs2 : List (Str × Value))
    (hsort : keysSorted ((acc ++ (k, v) :: kvs2).map fun p => p.1) = true) :
    ∀ p ∈ acc, strLt p.1 k = true := by
  intro p hp
  have e : (acc ++ (k, v) :: kvs2).map (fun p => p.1) =
      (acc.map fun p => p.1) ++ k :: (kvs2.map fun p => p.1) := by simp
  rw [e] at hsort
  exact keysSorted_middle k _ _ hsort p.1 (List.mem_map_of_mem _ hp)

theorem parse_print : ∀ fuel : Nat,
    (∀ (v : Value) (rest : Bytes), wfValue v = true → noLeadDigit rest = true →
      vFuel v ≤ fuel → parseVal fuel (jsonBytes v ++ rest) = some (v, rest)) ∧
    (∀ (vs : List Value) (rest : Bytes), vs ≠ [] → wfList vs = true → lFuel vs ≤ fuel →
      parseArrItems fuel (jsonArrBytes vs ++ (93 :: rest)) = some (.arrV vs, rest)) ∧
    (∀ (kvs acc : List (Str × Value)) (rest : Bytes), kvs ≠ [] → wfKVs kvs = true →
      keysSorted ((acc ++ kvs).map fun p => p.1) = true → kvFuel kvs ≤ fuel →
      parseObjItems fuel (jsonObjBytes kvs ++ (125 :: rest)) acc =
        some (.objV (acc ++ kvs), rest)) := by
  intro fuel
  induction fuel with
  | zero =>
    refine ⟨?_, ?_, ?_⟩
    · intro v rest _ _ hf
      have := vFuel_pos v
      omega
    · intro vs rest hne _ hf
      cases vs with
      | nil => exact (hne rfl).elim
      | cons v vs =>
        rw [lFuel] at hf
        omega
    · intro kvs acc rest hne _ _ hf
      cases kvs with
      | nil => exact (hne rfl).elim
      | cons kv kvs =>
        obtain ⟨k, v⟩ := kv
        rw [kvFuel] at hf
        omega
  | succ fuel ih =>
    obtain ⟨ihv, iha, iho⟩ := ih
    refine ⟨?_, ?_, ?_⟩
    · intro v rest hwf hrest hfuel
      cases v with
      | nullV =>
        show parseVal (fuel + 1) (110 :: (117 :: (108 :: (108 :: rest)))) =
          some (Value.nullV, rest)
        rw [parseVal_cons fuel _ 110 (117 :: (108 :: (108 :: rest)))
          (skipWs_cons 110 _ (by omega))]
        rfl
      | boolV b =>
        cases b with
        | true =>
          show parseVal (fuel + 1) (116 :: (114 :: (117 :: (101 :: rest)))) =
            some (Value.boolV true, rest)
          rw [parseVal_cons fuel _ 116 (114 :: (117 :: (101 :: rest)))
            (skipWs_cons 116 _ (by omega))]
          rfl
        | false =>
          show parseVal (fuel + 1) (102 :: (97 :: (108 :: (115 :: (101 :: rest))))) =
            some (Value.boolV false, rest)
          rw [parseVal_cons fuel _ 102 (97 :: (108 :: (115 :: (101 :: rest))))
            (skipWs_cons 102 _ (by omega))]
          rfl
      | intV i =>
        cases i with
        | ofNat n =>
          obtain ⟨d, ds, hd⟩ : ∃ d ds, natDigits n = d :: ds := by
            cases h : natDigits n with
            | nil => exact absurd h (natDigits_ne_nil n)
            | cons d ds => exact ⟨d, ds, rfl⟩
          have hdr := natDigits_digits n d (by rw [hd]; exact List.mem_cons_self d ds)
          have e : jsonBytes (Value.intV (Int.ofNat n)) ++ rest = d :: (ds ++ rest) := by
            show natDigits n ++ rest = _
            simp [hd]
          rw [e, parseVal_cons fuel (d :: (ds ++ rest)) d (ds ++ rest)
            (skipWs_cons d (ds ++ rest) (by omega)),
            if_neg (by omega), if_neg (by omega), if_neg (by omega), if_neg (by omega),
            if_neg (by omega), if_neg (by omega),
            if_pos (Or.inr (isDigit_of d hdr))]
          have e2 : (d :: (ds ++ rest) : Bytes) = intJsonBytes (Int.ofNat n) ++ rest := by
            show _ = natDigits n ++ rest
            simp [hd]
          rw [e2]
          exact parseNum_print (Int.ofNat n) rest hrest
        | negSucc m =>
          have e : jsonBytes (Value.intV (Int.negSucc m)) ++ rest =
              45 :: (natDigits (m + 1) ++ rest) := rfl
          rw [e, parseVal_cons fuel _ 45 (natDigits (m + 1) ++ rest)
            (skipWs_cons 45 _ (by omega)),
            if_neg (by omega), if_neg (by omega), if_neg (by omega), if_neg (by omega),
            if_neg (by omega), if_neg (by omega),
            if_pos (show (45 : Nat) = 45 ∨ isDigit 45 = true from Or.inl rfl)]
          have e2 : (45 :: (natDigits (m + 1) ++ rest) : Bytes) =
              intJsonBytes (Int.negSucc m) ++ rest := rfl
          rw [e2]
          exact parseNum_print (Int.negSucc m) rest hrest
      | strV s =>
        have e : jsonBytes (Value.strV s) ++ rest =
            34 :: (((s.map escChar).flatten ++ [34]) ++ rest) := rfl
        have e1 : ((s.map escChar).flatten ++ [34]) ++ rest =
            (s.map escChar).flatten ++ (34 :: rest) := by simp
        rw [e, parseVal_cons fuel _ 34 (((s.map escChar).flatten ++ [34]) ++ rest)
          (skipWs_cons 34 _ (by omega)),
          if_neg (by omega), if_neg (by omega), if_neg (by omega), if_pos (by rfl), e1,
          parseStr_print s rest _ (by
            have := flatten_escChar_len s
            simp only [List.length_append, List.length_cons]
            omega)]
      | arrV vs =>
        cases vs with
        | nil =>
          show parseVal (fuel + 1) (91 :: (93 :: rest)) = some (Value.arrV [], rest)
          rw [parseVal_cons fuel _ 91 (93 :: rest) (skipWs_cons 91 _ (by omega)),
            if_neg (by omega), if_neg (by omega), if_neg (by omega), if_neg (by omega),
            if_pos (by rfl), skipWs_cons 93 _ (by omega)]
          rfl
        | cons v vs2 =>
          obtain ⟨b0, tl0, hsh, hnws, h93, h125, h44, h58⟩ := jsonBytes_shape v
          have harr : ∃ tl, jsonArrBytes (v :: vs2) ++ (93 :: rest) = b0 :: tl := by
            cases vs2 with
            | nil =>
              refine ⟨tl0 ++ (93 :: rest), ?_⟩
              rw [jsonArrBytes, hsh]
              simp
            | cons v2 vs3 =>
              refine ⟨tl0 ++ ((44 :: jsonArrBytes (v2 :: vs3)) ++ (93 :: rest)), ?_⟩
              rw [jsonArrBytes, hsh]
              · simp
              · simp
          obtain ⟨tl, harr⟩ := harr
          have e : jsonBytes (Value.arrV (v :: vs2)) ++ rest =
              91 :: (jsonArrBytes (v :: vs2) ++ (93 :: rest)) := by
            rw [jsonBytes]
            simp
          rw [e, parseVal_cons fuel _ 91 (jsonArrBytes (v :: vs2) ++ (93 :: rest))
            (skipWs_cons 91 _ (by omega)),
            if_neg (by omega), if_neg (by omega), if_neg (by omega), if_neg (by omega),
            if_pos (by rfl), harr, skipWs_cons b0 tl hnws]
          show (if b0 = 93 then some (Value.arrV [], tl)
              else parseArrItems fuel (b0 :: tl)) = some (Value.arrV (v :: vs2), rest)
          rw [if_neg h93, ← harr]
          have hwl : wfList (v :: vs2) = true := by
            rw [wfValue] at hwf
            exact hwf
          refine iha (v :: vs2) rest (by simp) hwl ?_
          have hv : vFuel (Value.arrV (v :: vs2)) = 1 + lFuel (v :: vs2) := by rw [vFuel]
          omega
      | objV kvs =>
        cases kvs with
        | nil =>
          show parseVal (fuel + 1) (123 :: (125 :: rest)) = some (Value.objV [], rest)
          rw [parseVal_cons fuel _ 123 (125 :: rest) (skipWs_cons 123 _ (by omega)),
            if_neg (by omega), if_neg (by omega), if_neg (by omega), if_neg (by omega),
            if_neg (by omega), if_pos (by rfl), skipWs_cons 125 _ (by omega)]
          rfl
        | cons kv kvs2 =>
          obtain ⟨k, v⟩ := kv
          obtain ⟨hsorted, hkvs⟩ : keysSorted (((k, v) :: kvs2).map fun p => p.1) = true ∧
              wfKVs ((k, v) :: kvs2) = true := by
            simpa [wfValue] using hwf
          have e : jsonBytes (Value.objV ((k, v) :: kvs2)) ++ rest =
              123 :: (jsonObjBytes ((k, v) :: kvs2) ++ (125 :: rest)) := by
            rw [jsonBytes]
            simp
          have hobj : ∃ tl, jsonObjBytes ((k, v) :: kvs2) ++ (125 :: rest) = 34 :: tl := by
            cases kvs2 with
            | nil =>
              refine ⟨(k.map escChar).flatten ++
                (34 :: (58 :: (jsonBytes v ++ (125 :: rest)))), ?_⟩
              rw [jsonObjBytes, strJsonBytes]
              simp
            | cons kv2 kvs3 =>
              obtain ⟨k2, v2⟩ := kv2
              refine ⟨(k.map escChar).flatten ++ (34 :: (58 :: (jsonBytes v ++
                (44 :: (jsonObjBytes ((k2, v2) :: kvs3) ++ (125 :: rest)))))), ?_⟩
              rw [jsonObjBytes, strJsonBytes]
              · simp
              · simp
          obtain ⟨tl, hobj⟩ := hobj
          rw [e, parseVal_cons fuel _ 123 (jsonObjBytes ((k, v) :: kvs2) ++ (125 :: rest))
            (skipWs_cons 123 _ (by omega)),
            if_neg (by omega), if_neg (by omega), if_neg (by omega), if_neg (by omega),
            if_neg (by omega), if_pos (by rfl), hobj, skipWs_cons 34 tl (by omega)]
          show (if (34 : Nat) = 125 then some (Value.objV [], tl)
              else parseObjItems fuel (34 :: tl) []) =
            some (Value.objV ((k, v) :: kvs2), rest)
          rw [if_neg (by omega), ← hobj]
          have hres := iho ((k, v) :: kvs2) [] rest (by simp) hkvs hsorted (by
            have hv : vFuel (Value.objV ((k, v) :: kvs2)) = 1 + kvFuel ((k, v) :: kvs2) := by
              rw [vFuel]
            omega)
          simpa using hres
    · intro vs rest hne hwf hfuel
      cases vs with
      | nil => exact (hne rfl).elim
      | cons v vs2 =>
        obtain ⟨hwv, hwl⟩ : wfValue v = true ∧ wfList vs2 = true := by
          simpa [wfList] using hwf
        have hf1 : vFuel v ≤ fuel := by
          rw [lFuel] at hfuel
          omega
        have hf2 : lFuel vs2 ≤ fuel := by
          rw [lFuel] at hfuel
          omega
        cases vs2 with
        | nil =>
          have e : jsonArrBytes [v] ++ (93 :: rest) = jsonBytes v ++ (93 :: rest) := by
            rw [jsonArrBytes]
          rw [parseArrItems, e, ihv v (93 :: rest) hwv rfl hf1]
          rfl
        | cons v2 vs3 =>
          have e : jsonArrBytes (v :: (v2 :: vs3)) ++ (93 :: rest) =
              jsonBytes v ++ (44 :: (jsonArrBytes (v2 :: vs3) ++ (93 :: rest))) := by
            rw [jsonArrBytes]
            · simp
            · simp
          rw [parseArrItems, e,
            ihv v (44 :: (jsonArrBytes (v2 :: vs3) ++ (93 :: rest))) hwv rfl hf1]
          show (match parseArrItems fuel (jsonArrBytes (v2 :: vs3) ++ (93 :: rest)) with
            | some (.arrV vs, r3) => some (Value.arrV (v :: vs), r3)
            | _ => none) = some (Value.arrV (v :: (v2 :: vs3)), rest)
          rw [iha (v2 :: vs3) rest (by simp) hwl hf2]
    · intro kvs acc rest hne hwf hsort hfuel
      cases kvs with
      | nil => exact (hne rfl).elim
      | cons kv kvs2 =>
        obtain ⟨k, v⟩ := kv
        obtain ⟨hwv, hwkvs⟩ : wfValue v = true ∧ wfKVs kvs2 = true := by
          simpa [wfKVs] using hwf
        have hf1 : vFuel v ≤ fuel := by
          rw [kvFuel] at hfuel
          omega
        have hf2 : kvFuel kvs2 ≤ fuel := by
          rw [kvFuel] at hfuel
          omega
        have hlt : ∀ p ∈ acc, strLt p.1 k = true := acc_lt_key acc k v kvs2 hsort
        have hins : objInsert k v acc = acc ++ [(k, v)] := objInsert_append k v acc hlt
        cases kvs2 with
        | nil =>
          have e : jsonObjBytes [(k, v)] ++ (125 :: rest) =
              34 :: ((k.map escChar).flatten ++
                (34 :: (58 :: (jsonBytes v ++ (125 :: rest))))) := by
            rw [jsonObjBytes, strJsonBytes]
            simp
          rw [e, parseObjItems_head fuel _ acc
            ((k.map escChar).flatten ++ (34 :: (58 :: (jsonBytes v ++ (125 :: rest)))))
            (skipWs_cons 34 _ (by omega)),
            parseStr_print k (58 :: (jsonBytes v ++ (125 :: rest))) _ (by
              have := flatten_escChar_len k
              simp only [List.length_append, List.length_cons]
              omega)]
          show (match parseVal fuel (jsonBytes v ++ (125 :: rest)) with
            | none => none
            | some (v2, r3) =>
              match skipWs r3 with
              | 44 :: r4 => parseObjItems fuel r4 (objInsert k v2 acc)
              | 125 :: r4 => some (Value.objV (objInsert k v2 acc), r4)
              | _ => none) = some (Value.objV (acc ++ [(k, v)]), rest)
          rw [ihv v (125 :: rest) hwv rfl hf1]
          show some (Value.objV (objInsert k v acc), rest) =
            some (Value.objV (acc ++ [(k, v)]), rest)
          rw [hins]
        | cons kv2 kvs3 =>
          obtain ⟨k2, v2⟩ := kv2
          have e : jsonObjBytes ((k, v) :: ((k2, v2) :: kvs3)) ++ (125 :: rest) =
              34 :: ((k.map escChar).flatten ++ (34 :: (58 :: (jsonBytes v ++
                (44 :: (jsonObjBytes ((k2, v2) :: kvs3) ++ (125 :: rest))))))) := by
            rw [jsonObjBytes, strJsonBytes]
            · simp
            · simp
          rw [e, parseObjItems_head fuel _ acc
            ((k.map escChar).flatten ++ (34 :: (58 :: (jsonBytes v ++
              (44 :: (jsonObjBytes ((k2, v2) :: kvs3) ++ (125 :: rest)))))))
            (skipWs_cons 34 _ (by omega)),
            parseStr_print k (58 :: (jsonBytes v ++
              (44 :: (jsonObjBytes ((k2, v2) :: kvs3) ++ (125 :: rest))))) _ (by
              have := flatten_escChar_len k
              simp only [List.length_append, List.length_cons]
              omega)]
          show (match parseVal fuel (jsonBytes v ++
              (44 :: (jsonObjBytes ((k2, v2) :: kvs3) ++ (125 :: rest)))) with
            | none => none
            | some (v3, r3) =>
              match skipWs r3 with
              | 44 :: r4 => parseObjItems fuel r4 (objInsert k v3 acc)
              | 125 :: r4 => some (Value.objV (objInsert k v3 acc), r4)
              | _ => none) = some (Value.objV (acc ++ ((k, v) :: ((k2, v2) :: kvs3))), rest)
          rw [ihv v (44 :: (jsonObjBytes ((k2, v2) :: kvs3) ++ (125 :: rest))) hwv rfl hf1]
          show parseObjItems fuel (jsonObjBytes ((k2, v2) :: kvs3) ++ (125 :: rest))
              (objInsert k v acc) =
            some (Value.objV (acc ++ ((k, v) :: ((k2, v2) :: kvs3))), rest)
          rw [hins]
          have hres := iho ((k2, v2) :: kvs3) (acc ++ [(k, v)]) rest (by simp) hwkvs (by
            have e2 : ((acc ++ [(k, v)]) ++ ((k2, v2) :: kvs3)).map (fun p => p.1) =
                (acc ++ ((k, v) :: ((k2, v2) :: kvs3))).map (fun p => p.1) := by simp
            rw [e2]
            exact hsort) hf2
          rw [hres]
          have e3 : (acc ++ [(k, v)]) ++ ((k2, v2) :: kvs3) =
              acc ++ ((k, v) :: ((k2, v2) :: kvs3)) := by simp
          rw [e3]

theorem from_slice_print (v : Value) (h : wfValue v = true) :
    from_slice (jsonBytes v) = some v := by
  have hp := (parse_print ((jsonBytes v).length + 1)).1 v [] h rfl
    (by have := fuelBound.1 v; omega)
  rw [List.append_nil] at hp
  rw [from_slice, hp]
  rfl

theorem utf8Char_lt (n : Nat) (h : n < 1114112) : ∀ b ∈ utf8Char n, b < 256 := by
  intro b hb
  rw [utf8Char] at hb
  split_ifs at hb with h1 h2 h3
  · simp at hb
    omega
  · simp at hb
    have : n / 64 < 32 := by omega
    have : n % 64 < 64 := Nat.mod_lt _ (by omega)
    omega
  · simp at hb
    have : n / 4096 < 16 := by omega
    have : (n / 64) % 64 < 64 := Nat.mod_lt _ (by omega)
    have : n % 64 < 64 := Nat.mod_lt _ (by omega)
    omega
  · simp at hb
    have : n / 262144 < 5 := by omega
    have : (n / 4096) % 64 < 64 := Nat.mod_lt _ (by omega)
    have : (n / 64) % 64 < 64 := Nat.mod_lt _ (by omega)
    have : n % 64 < 64 := Nat.mod_lt _ (by omega)
    omega

theorem escChar_lt (c : Char) : ∀ b ∈ escChar c, b < 256 := by
  intro b hb
  rw [escChar] at hb
  have hc := char_lt_max c
  split_ifs at hb with h1 h2 h3 h4 h5 h6 h7 h8
  · simp at hb
    omega
  · simp at hb
    omega
  · simp at hb
    omega
  · simp at hb
    omega
  · simp at hb
    omega
  · simp at hb
    omega
  · simp at hb
    omega
  · have hx : ∀ m : Nat, m < 16 → hexDigitChar m < 256 := by
      intro m hm
      rw [hexDigitChar]
      split_ifs <;> omega
    have h16 : c.toNat % 16 < 16 := Nat.mod_lt _ (by omega)
    have h16b : c.toNat / 16 < 16 := by omega
    simp at hb
    rcases hb with h | h | h | h | h <;>
      first
      | omega
      | (subst h; exact hx _ h16b)
      | (subst h; exact hx _ h16)
  · exact utf8Char_lt c.toNat hc b hb

theorem jsonBytes_lt :
    (∀ v, ∀ b ∈ jsonBytes v, b < 256) ∧
    (∀ kvs : List (Str × Value), ∀ b ∈ jsonObjBytes kvs, b < 256) ∧
    (∀ vs : List Value, ∀ b ∈ jsonArrBytes vs, b < 256) := by
  have hstr : ∀ (s : Str), ∀ b ∈ strJsonBytes s, b < 256 := by
    intro s b hb
    rw [strJsonBytes] at hb
    simp at hb
    rcases hb with h | h | h
    · omega
    · obtain ⟨c, _, hbc⟩ := h
      exact escChar_lt c b hbc
    · omega
  have hint : ∀ (i : Int), ∀ b ∈ intJsonBytes i, b < 256 := by
    intro i b hb
    cases i with
    | ofNat n =>
      have := natDigits_digits n b hb
      omega
    | negSucc m =>
      rw [intJsonBytes] at hb
      rcases List.mem_cons.mp hb with rfl | h
      · omega
      · have := natDigits_digits (m + 1) b h
        omega
  apply jsonBytes.mutual_induct
  case case1 =>
    intro b hb
    rw [jsonBytes] at hb
    simp at hb
    omega
  case case2 =>
    intro b hb
    rw [jsonBytes] at hb
    simp at hb
    omega
  case case3 =>
    intro b hb
    rw [jsonBytes] at hb
    simp at hb
    omega
  case case4 =>
    intro i b hb
    rw [jsonBytes] at hb
    exact hint i b hb
  case case5 =>
    intro s b hb
    rw [jsonBytes] at hb
    exact hstr s b hb
  case case6 =>
    intro vs ih b hb
    rw [jsonBytes] at hb
    simp at hb
    rcases hb with h | h | h
    · omega
    · exact ih b h
    · omega
  case case7 =>
    intro kvs ih b hb
    rw [jsonBytes] at hb
    simp at hb
    rcases hb with h | h | h
    · omega
    · exact ih b h
    · omega
  case case8 =>
    intro b hb
    simp [jsonArrBytes] at hb
  case case9 =>
    intro v ih b hb
    rw [jsonArrBytes] at hb
    exact ih b hb
  case case10 =>
    intro v vs hne ihv ihvs b hb
    cases vs with
    | nil => exact (hne rfl).elim
    | cons v2 vs2 =>
      rw [jsonArrBytes] at hb
      · simp at hb
        rcases hb with h | h
        · exact ihv b h
        · rcases h with rfl | h2
          · omega
          · exact ihvs b h2
      · exact hne
  case case11 =>
    intro b hb
    simp [jsonObjBytes] at hb
  case case12 =>
    intro k v ih b hb
    rw [jsonObjBytes] at hb
    simp at hb
    rcases hb with h | h | h
    · exact hstr k b h
    · omega
    · exact ih b h
  case case13 =>
    intro k v kvs hne ihv ihkvs b hb
    cases kvs with
    | nil => exact (hne rfl).elim
    | cons kv2 kvs2 =>
      rw [jsonObjBytes] at hb
      · have hb2 : b ∈ strJsonBytes k ∨ b = 58 ∨ b ∈ jsonBytes v ∨ b = 44 ∨
            b ∈ jsonObjBytes (kv2 :: kvs2) := by
          simp only [strJsonBytes, List.append_assoc, List.cons_append,
            List.mem_append, List.mem_cons] at hb ⊢
          tauto
        rcases hb2 with h | h | h | h | h
        · exact hstr k b h
        · omega
        · exact ihv b h
        · omega
        · exact ihkvs b h
      · exact hne

theorem toBase64_no_dot (bs : Bytes) (h : ∀ b ∈ bs, b < 256) : '.' ∉ toBase64 bs := by
  intro hmem
  rw [toBase64] at hmem
  obtain ⟨v, hv, he⟩ := List.mem_map.mp hmem
  exact (b64Char_spec v (b64Sextets_lt bs h v hv)).2.2.2.2 he

theorem splitSep_no_sep (sep : Char) : ∀ (a : Str), sep ∉ a → splitSep sep a = [a] := by
  intro a
  induction a with
  | nil => intro _; rfl
  | cons c rest ih =>
    intro h
    rw [splitSep, if_neg (by simp at h; exact fun he => h.1 he.symm),
      ih (by simp at h; exact h.2)]

theorem splitSep_sep_append (sep : Char) :
    ∀ (a rest : Str), sep ∉ a → splitSep sep (a ++ (sep :: rest)) = a :: splitSep sep rest := by
  intro a
  induction a with
  | nil =>
    intro rest _
    show splitSep sep (sep :: rest) = _
    rw [splitSep, if_pos rfl]
  | cons c as ih =>
    intro rest h
    show splitSep sep (c :: (as ++ (sep :: rest))) = _
    rw [splitSep, if_neg (by simp at h; exact fun he => h.1 he.symm),
      ih rest (by simp at h; exact h.2)]

theorem verify_sign (k : RsaKey) (h : ValidRsa k) (digest : Bytes) :
    pkeyVerify ⟨k.n, k.e⟩ digest (pkeySign k digest) = true := by
  rw [pkeyVerify, pkeySign, bytesToNat_natToBytes, decide_eq_true_eq,
    show bytesToNat digest ^ k.d % k.n = (bytesToNat digest % k.n) ^ k.d % k.n from
      Nat.pow_mod _ _ _]
  exact h.2 (bytesToNat digest % k.n) (Nat.mod_lt _ h.1)

theorem entryMatches_jwkEntry (kid : Str) (k : NamedKey) :
    entryMatches kid (jwkEntry k) = .ok (k.id == kid) := by
  rw [entryMatches]
  have h1 : ((jwkEntry k).find "kid".data).bind Value.asString = some k.id := rfl
  rw [h1]
  show (if k.id = kid then
      (match ((jwkEntry k).find "use".data).bind Value.asString with
       | none => (ROut.panicked : ROut Unit Bool)
       | some usev => ROut.ok (usev == "sig".data))
    else ROut.ok false) = .ok (k.id == kid)
  by_cases h : k.id = kid
  · rw [if_pos h]
    have h2 : ((jwkEntry k).find "use".data).bind Value.asString = some "sig".data := rfl
    rw [h2]
    simp [beq_iff_eq, h]
  · rw [if_neg h]
    simp [beq_iff_eq, h]

theorem filterMatching_jwkEntries (kid : Str) (ks : List NamedKey) :
    filterMatching kid (ks.map jwkEntry) =
      .ok ((ks.filter fun k2 => k2.id == kid).map jwkEntry) := by
  induction ks with
  | nil => rfl
  | cons k ks ih =>
    rw [List.map_cons, filterMatching, entryMatches_jwkEntry, ih]
    by_cases h : k.id = kid
    · simp [List.filter_cons, beq_iff_eq, h]
    · simp [List.filter_cons, beq_iff_eq, h]

theorem count_filter_key : ∀ (l : List NamedKey) (k : NamedKey), k ∈ l →
    (l.map NamedKey.id).count k.id = 1 →
    l.filter (fun k2 => k2.id == k.id) = [k] := by
  intro l
  induction l with
  | nil =>
    intro k hk
    simp at hk
  | cons k1 rest ih =>
    intro k hk hcount
    rw [List.map_cons, List.count_cons] at hcount
    simp only [beq_iff_eq] at hcount
    by_cases h : k1.id = k.id
    · rw [if_pos h] at hcount
      have hc0 : (rest.map NamedKey.id).count k.id = 0 := by omega
      have hrest : rest.filter (fun k2 => k2.id == k.id) = [] := by
        rw [List.filter_eq_nil_iff]
        intro a ha
        simp only [beq_iff_eq]
        intro heq
        have hmem : k.id ∈ rest.map NamedKey.id := List.mem_map.mpr ⟨a, ha, heq⟩
        have := List.count_pos_iff_mem.mpr hmem
        omega
      have hk1 : k1 = k := by
        rcases List.mem_cons.mp hk with rfl | hmem
        · rfl
        · exfalso
          have hmem2 : k.id ∈ rest.map NamedKey.id := List.mem_map.mpr ⟨k, hmem, rfl⟩
          have := List.count_pos_iff_mem.mpr hmem2
          omega
      rw [List.filter_cons, if_pos (by simp [beq_iff_eq, h]), hrest, hk1]
    · rw [if_neg h] at hcount
      have hmem : k ∈ rest := by
        rcases List.mem_cons.mp hk with rfl | hmem
        · exact absurd rfl h
        · exact hmem
      rw [List.filter_cons, if_neg (by simp [beq_iff_eq, h])]
      exact ih k hmem (by omega)

theorem find_in_key_set (app : AppConfig) (k : NamedKey)
    (hk : k ∈ app.keys) (hcount : (app.keys.map NamedKey.id).count k.id = 1) :
    jwk_key_set_find (jwk_key_set app) k.id = .ok ⟨k.key.n, k.key.e⟩ := by
  rw [jwk_key_set_find]
  show (match filterMatching k.id (List.map jwkEntry app.keys) with
    | ROut.panicked => (ROut.panicked : ROut Unit RsaPub)
    | ROut.err e => ROut.err e
    | ROut.ok matching =>
      if matching.length ≠ 1 then .err ()
      else
        match matching with
        | [] => .panicked
        | m0 :: _ =>
          match (m0.find "n".data).bind Value.asString with
          | none => .panicked
          | some n_b64 =>
            match (m0.find "e".data).bind Value.asString with
            | none => .panicked
            | some e_b64 =>
              match fromBase64 n_b64, fromBase64 e_b64 with
              | some nb, some eb => .ok ⟨bytesToNat nb, bytesToNat eb⟩
              | _, _ => .panicked) = .ok ⟨k.key.n, k.key.e⟩
  rw [filterMatching_jwkEntries, count_filter_key app.keys k hk hcount]
  have h2 : fromBase64 (json_big_num k.key.n) = some (natToBytes k.key.n) := by
    rw [json_big_num]
    exact fromBase64_toBase64 _ (natToBytes_lt _)
  have h3 : fromBase64 (json_big_num k.key.e) = some (natToBytes k.key.e) := by
    rw [json_big_num]
    exact fromBase64_toBase64 _ (natToBytes_lt _)
  show (match fromBase64 (json_big_num k.key.n), fromBase64 (json_big_num k.key.e) with
    | some nb, some eb => (.ok ⟨bytesToNat nb, bytesToNat eb⟩ : ROut Unit RsaPub)
    | _, _ => .panicked) = .ok ⟨k.key.n, k.key.e⟩
  rw [h2, h3]
  show (.ok ⟨bytesToNat (natToBytes k.key.n), bytesToNat (natToBytes k.key.e)⟩ :
    ROut Unit RsaPub) = .ok ⟨k.key.n, k.key.e⟩
  rw [bytesToNat_natToBytes, bytesToNat_natToBytes]

theorem verify_mkToken (app : AppConfig) (k : NamedKey) (hdr payload : Value)
    (hk : k ∈ app.keys) (hcount : (app.keys.map NamedKey.id).count k.id = 1)
    (hrsa : ValidRsa k.key)
    (hhdr : wfValue hdr = true) (hpl : wfValue payload = true)
    (hkid : hdr.find "kid".data = some (.strV k.id)) :
    verify_jws (mkToken k.key hdr payload) (jwk_key_set app) = .ok payload := by
  have hnd0 : '.' ∉ toBase64 (jsonBytes hdr) := toBase64_no_dot _ (jsonBytes_lt.1 hdr)
  have hnd1 : '.' ∉ toBase64 (jsonBytes payload) := toBase64_no_dot _ (jsonBytes_lt.1 payload)
  have hnd2 : '.' ∉ toBase64 (pkeySign k.key (sha256
      ((toBase64 (jsonBytes hdr) ++ ('.' :: toBase64 (jsonBytes payload))).map
        Char.toNat))) := toBase64_no_dot _ (natToBytes_lt _)
  have hsplit : splitSep '.' (mkToken k.key hdr payload) =
      [toBase64 (jsonBytes hdr), toBase64 (jsonBytes payload),
        toBase64 (pkeySign k.key (sha256
          ((toBase64 (jsonBytes hdr) ++ ('.' :: toBase64 (jsonBytes payload))).map
            Char.toNat)))] := by
    rw [mkToken, List.append_assoc, List.cons_append,
      splitSep_sep_append '.' _ _ hnd0, splitSep_sep_append '.' _ _ hnd1,
      splitSep_no_sep '.' _ hnd2]
  have hb64h : fromBase64 (toBase64 (jsonBytes hdr)) = some (jsonBytes hdr) :=
    fromBase64_toBase64 _ (jsonBytes_lt.1 hdr)
  have hslh : from_slice (jsonBytes hdr) = some hdr := from_slice_print hdr hhdr
  have hfind := find_in_key_set app k hk hcount
  have hb64p : fromBase64 (toBase64 (jsonBytes payload)) = some (jsonBytes payload) :=
    fromBase64_toBase64 _ (jsonBytes_lt.1 payload)
  have hslp : from_slice (jsonBytes payload) = some payload := from_slice_print payload hpl
  have hb64sig : fromBase64 (toBase64 (pkeySign k.key (sha256
      ((toBase64 (jsonBytes hdr) ++ ('.' :: toBase64 (jsonBytes payload))).map
        Char.toNat)))) = some (pkeySign k.key (sha256
      ((toBase64 (jsonBytes hdr) ++ ('.' :: toBase64 (jsonBytes payload))).map
        Char.toNat))) := fromBase64_toBase64 _ (natToBytes_lt _)
  have hver : pkeyVerify ⟨k.key.n, k.key.e⟩ (sha256
      ((toBase64 (jsonBytes hdr) ++ ('.' :: toBase64 (jsonBytes payload))).map
        Char.toNat)) (pkeySign k.key (sha256
      ((toBase64 (jsonBytes hdr) ++ ('.' :: toBase64 (jsonBytes payload))).map
        Char.toNat))) = true := verify_sign k.key hrsa _
  rw [verify_jws, hsplit]
  simp only [hb64h, hslh, hkid, Option.bind, Value.asString, hfind, hb64sig, hver,
    hb64p, hslp, if_true]

theorem filterMatching_shaped (kid : Str) : ∀ (entries : List Value),
    (∀ v ∈ entries, entryShaped v = true) →
    filterMatching kid entries = .ok (entries.filter (entryFilter kid)) := by
  intro entries
  induction entries with
  | nil => intro _; rfl
  | cons v rest ih =>
    intro h
    have hv := h v (List.mem_cons_self v rest)
    rw [entryShaped, Bool.and_eq_true, Option.isSome_iff_exists,
      Option.isSome_iff_exists] at hv
    obtain ⟨⟨kidv, hkidv⟩, ⟨usev, husev⟩⟩ := hv
    have hm : entryMatches kid v = .ok (entryFilter kid v) := by
      rw [entryMatches, hkidv]
      show (if kidv = kid then
          (match (v.find "use".data).bind Value.asString with
           | none => (ROut.panicked : ROut Unit Bool)
           | some usev => ROut.ok (usev == "sig".data))
        else ROut.ok false) = .ok (entryFilter kid v)
      rw [entryFilter, hkidv, husev]
      by_cases hkk : kidv = kid
      · rw [if_pos hkk]
        simp [beq_iff_eq, hkk]
      · rw [if_neg hkk]
        simp [beq_iff_eq, hkk]
    rw [filterMatching, hm, ih (fun v2 hv2 => h v2 (List.mem_cons_of_mem _ hv2)),
      List.filter_cons]

/-- C2: the spec claims that an input that does not split into exactly
three parts yields the typed error `Malformed`; in the code the string
`"a.b"` (two parts) instead panics, because `parts[0] == "a"` is not
valid base64 and the result is unwrapped. The panic happens before the
key set is ever inspected. -/
theorem claim2_two_parts_panics (key_set : Value) :
    verify_jws "a.b".data key_set = .panicked := rfl

/-- C3 (amended): for every key ring containing the named key `k` whose
id is carried by exactly one ring entry, a working RSA key pair and a
well-formed payload, `verify_jws` accepts the token `sign_jws k payload`
against `jwk_key_set` of the ring and returns the original payload. -/
theorem claim3_sign_verify (app : AppConfig) (k : NamedKey) (payload : Value)
    (hk : k ∈ app.keys) (hcount : (app.keys.map NamedKey.id).count k.id = 1)
    (hrsa : ValidRsa k.key) (hpl : wfValue payload = true) :
    verify_jws (sign_jws k payload) (jwk_key_set app) = .ok payload := by
  rw [sign_jws]
  exact verify_mkToken app k (signHeader k) payload hk hcount hrsa rfl hpl rfl

/-- Witness for C3: a concrete one-key ring with a small valid RSA key
(n = 15, e = d = 3) and the payload `7`. -/
theorem claim3_witness :
    verify_jws (sign_jws ⟨"a".data, ⟨15, 3, 3⟩⟩ (.intV 7))
        (jwk_key_set ⟨[⟨"a".data, ⟨15, 3, 3⟩⟩]⟩) = .ok (.intV 7) :=
  claim3_sign_verify ⟨[⟨"a".data, ⟨15, 3, 3⟩⟩]⟩ ⟨"a".data, ⟨15, 3, 3⟩⟩ (.intV 7)
    (by decide) (by decide) (by decide) rfl

/-- Counterexample to C3 as stated: a ring *containing* `k` twice (two
entries with the same kid). The generated JWKS has two matching
entries, `jwk_key_set_find` fails, and verification errors instead of
returning the payload. -/
theorem claim3_counterexample :
    verify_jws (sign_jws ⟨"a".data, ⟨15, 3, 3⟩⟩ (.intV 7))
        (jwk_key_set ⟨[⟨"a".data, ⟨15, 3, 3⟩⟩, ⟨"a".data, ⟨15, 3, 3⟩⟩]⟩) =
      .err () := by
  rfl

/-- C1 (amended): `verify_jws` never reads the header's `alg` field. A
token assembled with any `alg` value, signed with the ring key, is
accepted — for `alg ≠ "RS256"` this refutes the claim that such tokens
are rejected. -/
theorem claim1_alg_not_checked (app : AppConfig) (k : NamedKey) (payload : Value)
    (alg : Str)
    (hk : k ∈ app.keys) (hcount : (app.keys.map NamedKey.id).count k.id = 1)
    (hrsa : ValidRsa k.key) (hpl : wfValue payload = true)
    (halg : alg ≠ "RS256".data) :
    verify_jws (mkToken k.key (algHeader k.id alg) payload) (jwk_key_set app) =
      .ok payload :=
  verify_mkToken app k (algHeader k.id alg) payload hk hcount hrsa rfl hpl rfl

/-- Witness for C1: the concrete ring `[("a", n=15,e=3,d=3)]` and a
token whose header says `"alg": "none"`. -/
theorem claim1_witness :
    verify_jws (mkToken ⟨15, 3, 3⟩ (algHeader "a".data "none".data) (.intV 7))
        (jwk_key_set ⟨[⟨"a".data, ⟨15, 3, 3⟩⟩]⟩) = .ok (.intV 7) :=
  claim1_alg_not_checked ⟨[⟨"a".data, ⟨15, 3, 3⟩⟩]⟩ ⟨"a".data, ⟨15, 3, 3⟩⟩ (.intV 7)
    "none".data (by decide) (by decide) (by decide) rfl (by decide)

/-- Counterexample to C1 as stated: a concrete token whose decoded
header carries `"alg": "none"` (different from `"RS256"`), yet
`verify_jws` accepts it and returns the payload. -/
theorem claim1_counterexample :
    (algHeader "a".data "none".data).find "alg".data = some (.strV "none".data) ∧
    "none".data ≠ "RS256".data ∧
    verify_jws (mkToken ⟨15, 3, 3⟩ (algHeader "a".data "none".data) (.intV 7))
        (jwk_key_set ⟨[⟨"a".data, ⟨15, 3, 3⟩⟩]⟩) = .ok (.intV 7) :=
  ⟨rfl, by decide,
    verify_mkToken ⟨[⟨"a".data, ⟨15, 3, 3⟩⟩]⟩ ⟨"a".data, ⟨15, 3, 3⟩⟩
      (algHeader "a".data "none".data) (.intV 7)
      (by decide) (by decide) (by decide) rfl rfl rfl⟩

/-- C4 (amended): on a JWKS whose entries all carry string `kid` and
`use` fields (so the filter cannot panic), `jwk_key_set_find` errors
exactly when the number of entries matching the requested kid with
`use == "sig"` differs from one. -/
theorem claim4_exact_match (set : Value) (entries : List Value) (kid : Str)
    (hfind : (set.find "keys".data).bind Value.asArray = some entries)
    (hshape : ∀ v ∈ entries, entryShaped v = true) :
    (jwk_key_set_find set kid = .err () ↔
      (entries.filter (entryFilter kid)).length ≠ 1) := by
  rw [jwk_key_set_find]
  simp only [hfind]
  rw [filterMatching_shaped kid entries hshape]
  show (if (entries.filter (entryFilter kid)).length ≠ 1 then (.err () : ROut Unit RsaPub)
    else match entries.filter (entryFilter kid) with
      | [] => .panicked
      | m0 :: _ =>
        match (m0.find "n".data).bind Value.asString with
        | none => .panicked
        | some n_b64 =>
          match (m0.find "e".data).bind Value.asString with
          | none => .panicked
          | some e_b64 =>
            match fromBase64 n_b64, fromBase64 e_b64 with
            | some nb, some eb => .ok ⟨bytesToNat nb, bytesToNat eb⟩
            | _, _ => .panicked) = .err () ↔
      (entries.filter (entryFilter kid)).length ≠ 1
  by_cases hlen : (entries.filter (entryFilter kid)).length ≠ 1
  · rw [if_pos hlen]
    simp [hlen]
  · rw [if_neg hlen]
    obtain ⟨m0, hm0⟩ : ∃ m0, entries.filter (entryFilter kid) = [m0] :=
      List.length_eq_one.mp (by omega)
    rw [hm0]
    show (match (m0.find "n".data).bind Value.asString with
      | none => (.panicked : ROut Unit RsaPub)
      | some n_b64 =>
        match (m0.find "e".data).bind Value.asString with
        | none => .panicked
        | some e_b64 =>
          match fromBase64 n_b64, fromBase64 e_b64 with
          | some nb, some eb => .ok ⟨bytesToNat nb, bytesToNat eb⟩
          | _, _ => .panicked) = .err () ↔ ([m0] : List Value).length ≠ 1
    constructor
    · intro h
      exfalso
      cases hn : (m0.find "n".data).bind Value.asString with
      | none =>
        rw [hn] at h
        simp at h
      | some nb64 =>
        rw [hn] at h
        have h2 : (match (m0.find "e".data).bind Value.asString with
          | none => (.panicked : ROut Unit RsaPub)
          | some e_b64 =>
            match fromBase64 nb64, fromBase64 e_b64 with
            | some nb, some eb => .ok ⟨bytesToNat nb, bytesToNat eb⟩
            | _, _ => .panicked) = .err () := h
        cases he : (m0.find "e".data).bind Value.asString with
        | none =>
          rw [he] at h2
          simp at h2
        | some eb64 =>
          rw [he] at h2
          have h3 : (match fromBase64 nb64, fromBase64 eb64 with
            | some nb, some eb => (.ok ⟨bytesToNat nb, bytesToNat eb⟩ : ROut Unit RsaPub)
            | _, _ => .panicked) = .err () := h2
          cases hfn : fromBase64 nb64 <;> cases hfe : fromBase64 eb64 <;>
            rw [hfn, hfe] at h3 <;> simp at h3
    · intro h
      simp at h

/-- Witness for C4: a set with two entries matching kid `"a"` — the
filter finds both and the lookup errors. -/
theorem claim4_witness :
    jwk_key_set_find
        (.objV [("keys".data,
          .arrV [.objV [("kid".data, .strV "a".data), ("use".data, .strV "sig".data)],
            .objV [("kid".data, .strV "a".data), ("use".data, .strV "sig".data)]])])
        "a".data = .err () :=
  (claim4_exact_match
      (.objV [("keys".data,
        .arrV [.objV [("kid".data, .strV "a".data), ("use".data, .strV "sig".data)],
          .objV [("kid".data, .strV "a".data), ("use".data, .strV "sig".data)]])])
      [.objV [("kid".data, .strV "a".data), ("use".data, .strV "sig".data)],
        .objV [("kid".data, .strV "a".data), ("use".data, .strV "sig".data)]]
      "a".data rfl (by decide)).mpr (by decide)

/-- Counterexample to C4 as stated: a set whose single entry has no
`kid` field. No entry matches, but instead of returning an error the
function panics on the filter's `unwrap`. -/
theorem claim4_counterexample :
    jwk_key_set_find (.objV [("keys".data, .arrV [.objV []])]) "x".data =
      .panicked := rfl

/-- C8: on the complete path, an absent session record fails with
`UnknownSession` and nothing else; the `take`-based wrapper around
`complete_auth` is modelled from the spec (§4.5 Complete), as the HTTP
layer owning the session store is not part of the sources. -/
theorem claim8_unknown_session (app : AppConfig) (store : SessionStore) (sid : Str)
    (habsent : store.lookup sid = none) :
    handle_complete app store sid = .err .unknownSession := by
  rw [handle_complete, takeSession, habsent]

/-- Witness for C8: the empty store. -/
theorem claim8_witness :
    handle_complete ⟨[]⟩ ([] : SessionStore) "s".data = .err .unknownSession :=
  claim8_unknown_session ⟨[]⟩ [] "s".data rfl

end Ladaemon
